import Mathlib

/-!
# CombinedChatOverlay — verification of the spec's claims

Shallow embedding of the chat-overlay core (merge/retention store, rich-text
tokenizer, IRC-style message parsing, deterministic user colors, the polling
adapter's decoder and failure handling), translated from the TypeScript
sources, together with theorems settling the spec's claims.

Conventions:
* JS strings are UTF-16 code-unit sequences; they are modeled as Lean
  `String`/`List Char`.  All characters occurring in the concrete inputs of
  this development are in the Basic Multilingual Plane, where one code unit
  is one scalar value, so lengths and offsets agree with JS.
* JS `Date` timestamps are modeled by their `getTime()` millisecond value,
  a `Nat`.  In the store every message carries a `Date`, so the comparator
  guard `a.timestamp && b.timestamp && a.timestamp.getTime && ...` always
  takes the numeric branch (a `Date` object and a function are truthy).
* `Array.prototype.sort` is a stable sort (ES2019); for a comparator that is
  a total preorder by a single `Nat` key the stable sort result is unique,
  and it is modeled by a stable insertion sort on that key (a new element is
  inserted after all already-placed elements whose key is `≤` its own).
-/

namespace CombinedChatOverlay

/-! ## Merge & Retention Store — `src/unnamed/part_001` (store with dedup)

`ChatMessage` fields not consulted by the store logic (platform, emotes,
badges, colors, ...) are collapsed into the `username`/`message` payload
fields; the store reads only `id` and `timestamp`. -/

structure Msg where
  id : String
  username : String
  message : String
  /-- `timestamp.getTime()` in milliseconds. -/
  timestamp : Nat
  deriving DecidableEq, Repr

/-- One step of `merged.reduce((map, msg) => map.set(msg.id, msg), new Map())`:
JS `Map.set` keeps the first-insertion position of an existing key and
overwrites its value, and appends a fresh key at the end. -/

def mapSet (m : List Msg) (msg : Msg) : List Msg :=
  if m.any (fun x => x.id == msg.id) then
    m.map (fun x => if x.id == msg.id then msg else x)
  else
    m ++ [msg]

/-- `Array.from(merged.reduce((map, msg) => map.set(msg.id, msg), new Map()),
([, msg]) => msg)` — deduplicate by `id`, first position, last value. -/

def dedupById (l : List Msg) : List Msg :=
  l.foldl mapSet []

/-- Stable insertion for the comparator
`(a, b) => a.timestamp.getTime() - b.timestamp.getTime()`:
the new element goes after every already-placed element with `timestamp ≤` its
own, so elements tying on `timestamp` keep their relative order. -/

def insortTs (x : Msg) : List Msg → List Msg
  | [] => [x]
  | y :: ys => if y.timestamp ≤ x.timestamp then y :: insortTs x ys else x :: y :: ys

/-- `deduped.sort((a, b) => ...)` — stable sort by ascending `timestamp`. -/

def sortByTs (l : List Msg) : List Msg :=
  l.foldl (fun acc x => insortTs x acc) []

/-- `arr.slice(-n)` — the last `n` elements. -/

def sliceLast (n : Nat) (l : List Msg) : List Msg :=
  l.drop (l.length - n)

/-- `addMessages(newMessages)` applied to the store state `msgs`
(src/unnamed/part_001 lines 51–69). -/

def addMessages (newMessages : List Msg) (msgs : List Msg) : List Msg :=
  sliceLast 100 (sortByTs (dedupById (msgs ++ newMessages)))

/-- `addMessage(message)` applied to the store state `msgs`
(src/unnamed/part_001 lines 85–99). -/

def addMessage (message : Msg) (msgs : List Msg) : List Msg :=
  sliceLast 100 (sortByTs ((msgs.filter (fun m => ¬ m.id == message.id)) ++ [message]))

/-- A store mutation: the two write operations the store exposes. -/

inductive StoreOp where
  | add (m : Msg)
  | addBatch (b : List Msg)

/-- Apply one store operation to a state. -/

def applyOp (s : List Msg) : StoreOp → List Msg
  | .add m => addMessage m s
  | .addBatch b => addMessages b s

/-- The view after a sequence of operations, starting from the empty store. -/

def applyOps (ops : List StoreOp) : List Msg :=
  ops.foldl applyOp []

/-- The full sorted, deduplicated working set an operation builds before the
`slice(-100)` eviction. -/

def workingSorted (s : List Msg) : StoreOp → List Msg
  | .add m => sortByTs ((s.filter (fun x => ¬ x.id == m.id)) ++ [m])
  | .addBatch b => sortByTs (dedupById (s ++ b))

/-- Ascending-timestamp order of a view. -/

def TsSorted (l : List Msg) : Prop :=
  l.Pairwise (fun a b => a.timestamp ≤ b.timestamp)

/-! ### Identity (dedup) lemmas -/

/-- The ids of a view, in order. -/

def ids (l : List Msg) : List String :=
  l.map Msg.id

/-! ### Store claim theorems -/

/-- Concrete store messages used in witnesses and counterexamples. -/

def wMsg (i : Nat) : Msg :=
  ⟨toString i, "user", "text", i⟩

/-- A full 101-message store state (ids "0".."100", ascending timestamps). -/

def wState : List Msg :=
  (List.range 101).map wMsg

/-- A store state filled to exactly the retention window's 100 messages
(ids "0".."99", ascending timestamps). -/

def wState100 : List Msg :=
  (List.range 100).map wMsg

/-! ### Re-processing a batch (C3) -/

/-- The last occurrence in `b` of a message with id `i` — the value JS
`Map.set` folding leaves for key `i`. -/

def lastOcc (b : List Msg) (i : String) : Option Msg :=
  match b with
  | [] => none
  | m :: t =>
    match lastOcc t i with
    | some v => some v
    | none => if m.id == i then some m else none

/-- A 101-message batch with all timestamps equal: large enough to overflow
the 100-message window, with ties throughout. -/

def batch101 : List Msg :=
  (List.range 101).map (fun i => ⟨String.mk [Char.ofNat (65 + i)], "user", "text", 0⟩)

/-! ## Polling adapter failure handling — `src/src/lib/services/youtubeService.ts`

`pollMessages` (lines 116–186) is modeled as a transition system over the
state the failure logic reads and writes: `retryCount`, the connection flag
set through `updateConnectionStatus`, and whether a next poll was scheduled
(`scheduleNextPoll` reached).  A poll's outcome is `ok` (response without
error) or `fail` (thrown/error response, the `catch` branch).  On `ok` the
code sets the status to connected and schedules the next poll without
touching `retryCount`; on `fail` it increments `retryCount`, marks the
platform disconnected, and — when `retryCount ≥ maxRetries` — returns
before `scheduleNextPoll`, ending the poll chain.  The early return for a
missing continuation/videoId is not part of the failure-count logic and is
not modeled. -/

structure YTPollState where
  retryCount : Nat
  connected : Bool
  /-- No further poll was scheduled: the poll chain has ended. -/
  halted : Bool
  deriving DecidableEq, Repr

/-- `private maxRetries: number = 5` (youtubeService.ts line 32). -/

def maxRetries : Nat := 5

inductive PollOutcome where
  | ok
  | fail
  deriving DecidableEq, Repr

/-- One `pollMessages` run, given its fetch outcome. -/

def pollStep (s : YTPollState) (o : PollOutcome) : YTPollState :=
  if s.halted then s
  else
    match o with
    | .ok => { s with connected := true }
    | .fail =>
      let rc := s.retryCount + 1
      if rc ≥ maxRetries then ⟨rc, false, true⟩
      else ⟨rc, false, false⟩

/-- The state after a sequence of poll outcomes. -/

def runPolls (s : YTPollState) (os : List PollOutcome) : YTPollState :=
  os.foldl pollStep s

/-- The state right after a successful `connect()` (`retryCount = 0`,
connected, polling started). -/

def connectedState : YTPollState := ⟨0, true, false⟩

/-- Number of failed polls in a trace. -/

def countFails : List PollOutcome → Nat
  | [] => 0
  | .fail :: os => countFails os + 1
  | .ok :: os => countFails os

/-! ## Deterministic user colors — `twitchService.ts` and `ChatMessage.svelte`

JS numeric semantics of `hash = username.charCodeAt(i) + ((hash << 5) - hash)`:
`<<` coerces its operand to a signed 32-bit integer and produces one, while
the additions stay exact doubles (all intermediate values here are far below
2^53).  JS `charCodeAt` yields UTF-16 code units, which coincide with the
scalar values `Char.toNat` for the Basic Multilingual Plane. -/

/-- JS `ToInt32`: reduce an integer to the signed 32-bit range. -/

def jsToInt32 (n : Int) : Int :=
  let m := n % 4294967296
  if m ≥ 2147483648 then m - 4294967296 else m

/-- JS `hash << 5` — shift after coercing to int32, staying in int32. -/

def jsShl5 (h : Int) : Int := jsToInt32 (jsToInt32 h * 32)

/-- The UTF-16 code units of a string (BMP characters assumed). -/

def charCodes (s : String) : List Nat := s.data.map Char.toNat

/-- The 15-color palette of `generateDefaultColor`
(twitchService.ts lines 147–163). -/

def twitchDefaultColors : List String :=
  ["#FF0000", "#0000FF", "#00FF00", "#B22222", "#FF7F50",
   "#9ACD32", "#FF4500", "#2E8B57", "#DAA520", "#D2691E",
   "#5F9EA0", "#1E90FF", "#FF69B4", "#8A2BE2", "#00FF7F"]

/-- `generateDefaultColor` (twitchService.ts lines 145–173). -/

def generateDefaultColor (username : String) : String :=
  let hash := (charCodes username).foldl (fun hash c => (c : Int) + jsShl5 hash - hash) 0
  twitchDefaultColors.getD (hash.natAbs % twitchDefaultColors.length) ""

/-- The palette of `generateUserColor` (ChatMessage.svelte lines 30–46). -/

def chatMessageDefaultColors : List String :=
  ["#FF0000", "#0000FF", "#00FF00", "#B22222", "#FF7F50",
   "#9ACD32", "#FF4500", "#2E8B57", "#DAA520", "#D2691E",
   "#5F9EA0", "#1E90FF", "#FF69B4", "#8A2BE2", "#00FF7F"]

/-- `generateUserColor` (ChatMessage.svelte lines 29–55), the tokenizer's
mention-color function. -/

def generateUserColor (username : String) : String :=
  let hash := (charCodes username).foldl (fun hash c => (c : Int) + jsShl5 hash - hash) 0
  chatMessageDefaultColors.getD (hash.natAbs % chatMessageDefaultColors.length) ""

/-- Modelled from the spec's formula: the palette entry at index
`abs(h) mod 15`, with `h` the Java-style `s[i] + (h << 5) - h` accumulation
over the username's code units. -/

def colorForSpec (username : String) : String :=
  twitchDefaultColors.getD
    (((username.data.map Char.toNat).foldl
        (fun h c => (c : Int) + jsShl5 h - h) 0).natAbs % 15) ""

/-! ## IRC-style PRIVMSG parsing — `twitchService.ts` `parsePrivMsg`

The regex `/:(\w+)!\w+@\w+\.tmi\.twitch\.tv PRIVMSG #\w+ :(.+)/` is modeled
by a leftmost-match scanner.  Every `\w+` in the pattern is followed by a
non-word character, so greedy maximal munch without backtracking is exact;
the trailing `(.+)` takes everything up to the end of the line (`.` does not
match a newline). -/

/-- JS `\w` — `[A-Za-z0-9_]`. -/

def isWordChar (c : Char) : Bool := c.isAlphanum || c = '_'

/-- JS `String.prototype.split` on a single-character separator: always at
least one (possibly empty) part. -/

def splitChar (sep : Char) : List Char → List (List Char)
  | [] => [[]]
  | c :: rest =>
    match splitChar sep rest with
    | [] => [[c]]
    | part :: parts =>
      if c = sep then [] :: part :: parts else (c :: part) :: parts

/-- JS object property assignment `obj[k] = v`: overwrite in place or append. -/

def objSet (m : List (String × String)) (k v : String) : List (String × String) :=
  if m.any (fun p => p.1 == k) then m.map (fun p => if p.1 == k then (k, v) else p)
  else m ++ [(k, v)]

/-- JS object property read `obj[k]` (`undefined` = `none`). -/

def objGet (m : List (String × String)) (k : String) : Option String :=
  (m.find? (fun p => p.1 == k)).map (fun p => p.2)

/-- `tagString.split(';').forEach(tag => { const [key, value] = tag.split('=');
tags[key] = value || ''; })`. -/

def parseTags (tagString : List Char) : List (String × String) :=
  (splitChar ';' tagString).foldl
    (fun m tag =>
      let parts := splitChar '=' tag
      objSet m (String.mk (parts.getD 0 [])) (String.mk (parts.getD 1 [])))
    []

/-- JS `Array/String.prototype.slice` index semantics: negative indices wrap
from the end, then clamp to `[0, length]`. -/

def jsSliceList (cs : List Char) (a b : Int) : List Char :=
  let len : Int := cs.length
  let norm : Int → Nat := fun i => if i < 0 then (max (len + i) 0).toNat else (min i len).toNat
  (cs.take (norm b)).drop (norm a)

/-- Literal pattern fragment match. -/

def matchesLit : List Char → List Char → Bool
  | [], _ => true
  | _ :: _, [] => false
  | l :: ls, c :: cs => l == c && matchesLit ls cs

/-- Try the PRIVMSG pattern anchored at the head of `cs`; produce the two
capture groups (login, message text). -/

def matchPrivAt (cs : List Char) : Option (String × String) :=
  match cs with
  | ':' :: r1 =>
    let u := r1.takeWhile isWordChar
    if u.isEmpty then none else
    match r1.drop u.length with
    | '!' :: r2 =>
      let w2 := r2.takeWhile isWordChar
      if w2.isEmpty then none else
      match r2.drop w2.length with
      | '@' :: r3 =>
        let w3 := r3.takeWhile isWordChar
        if w3.isEmpty then none else
        let r4 := r3.drop w3.length
        let lit := ".tmi.twitch.tv PRIVMSG #".data
        if matchesLit lit r4 then
          let r5 := r4.drop lit.length
          let w4 := r5.takeWhile isWordChar
          if w4.isEmpty then none else
          match r5.drop w4.length with
          | ' ' :: ':' :: r6 =>
            let msg := r6.takeWhile (fun c => ¬ c = '\n')
            if msg.isEmpty then none else some (String.mk u, String.mk msg)
          | _ => none
        else none
      | _ => none
    | _ => none
  | _ => none

def privSearch : Nat → List Char → Option (String × String)
  | 0, _ => none
  | fuel + 1, cs =>
    match matchPrivAt cs with
    | some r => some r
    | none =>
      match cs with
      | [] => none
      | _ :: rest => privSearch fuel rest

/-- `messageData.match(/:(\w+)!\w+@\w+\.tmi\.twitch\.tv PRIVMSG #\w+ :(.+)/)`
— the leftmost match's capture groups. -/

def privMsgRegexMatch (cs : List Char) : Option (String × String) :=
  privSearch (cs.length + 1) cs

/-- The fields of the canonical message `parsePrivMsg` constructs that are
deterministic (id and timestamp are generated from the clock and RNG). -/

structure PrivMsg where
  username : String
  userColor : String
  message : String
  deriving DecidableEq, Repr

/-- `parsePrivMsg` (twitchService.ts lines 93–143): tag extraction, pattern
match, color fallback, display-name fallback. -/

def parsePrivMsg (line : String) : Option PrivMsg :=
  let cs := line.data
  let td :=
    if cs.head? = some '@' then
      let tagEnd : Int :=
        match cs.findIdx? (fun c => c = ' ') with
        | some i => (i : Int)
        | none => -1
      (parseTags (jsSliceList cs 1 tagEnd), jsSliceList cs (tagEnd + 1) cs.length)
    else ([], cs)
  match privMsgRegexMatch td.2 with
  | none => none
  | some um =>
    let username := um.1
    let userColor :=
      match objGet td.1 "color" with
      | some c => if c = "" then generateDefaultColor username else c
      | none => generateDefaultColor username
    let displayName :=
      match objGet td.1 "display-name" with
      | some d => if d = "" then username else d
      | none => username
    some ⟨displayName, userColor, um.2⟩

/-! ## Rich-text tokenizer — `ChatMessage.svelte` `parseMessageWithMentions`

The source function (lines 57–186) collects emote/link/mention ranges,
resolves overlaps by priority (emote > link > mention, dropping the
lower-priority range entirely), sorts surviving ranges by start offset with
the stable comparator `(a, b) => a.start - b.start`, and emits literal text
for gaps plus one typed token per range.  It is modeled as a producer of a
structured token list (`Tok`) rather than of the HTML string the component
interpolates, and the three range-collection loops are split into the named
definitions `emotePart`/`linkPart`/`mentionPart`.  The trailing best-effort
textual-emote substitution pass (lines 169–184) rewrites the HTML string
after tokenization and does not alter the token structure; it is not
modeled.  An emote annotation with an empty `positions` array would throw in
JS (`emote.positions[0]` destructuring); such annotations are skipped here
and never arise in the claims. -/

structure EmoteAnn where
  name : String
  url : String
  positions : List (Nat × Nat)
  deriving DecidableEq, Repr

/-- The character class of the link regex
`/https:\/\/[\w\-._~:/?#[\]@!$&'()*+,;=%]+/gi`. -/

def linkClassChar (c : Char) : Bool :=
  isWordChar c ||
    ['-', '.', '_', '~', ':', '/', '?', '#', '[', ']', '@', '!', '$', '&', '\'',
     '(', ')', '*', '+', ',', ';', '=', '%'].contains c

/-- Case-insensitive literal match (the regex carries the `i` flag). -/

def ciMatchesLit : List Char → List Char → Bool
  | [], _ => true
  | _ :: _, [] => false
  | l :: ls, c :: cs => (l.toLower == c.toLower) && ciMatchesLit ls cs

/-- Anchored attempt of the link regex: `https://` (case-insensitive) then a
maximal nonempty run of class characters.  Returns match length and text. -/

def matchLinkAt (cs : List Char) : Option (Nat × String) :=
  if ciMatchesLit "https://".data cs then
    let body := (cs.drop 8).takeWhile linkClassChar
    if body.isEmpty then none
    else some (8 + body.length, String.mk (cs.take (8 + body.length)))
  else none

/-- Anchored attempt of the mention regex `/@(\w+)/g`: returns match length
(`@` plus the word run) and the captured username. -/

def matchMentionAt (cs : List Char) : Option (Nat × String) :=
  match cs with
  | [] => none
  | c :: rest =>
    if c = '@' then
      let w := rest.takeWhile isWordChar
      if w.isEmpty then none else some (1 + w.length, String.mk w)
    else none

/-- The `while ((match = regex.exec(text)) !== null)` loop: try the pattern
at each position, and on success continue after the match (`lastIndex`).
Ranges are `[start, endInclusive]` as the source stores them. -/

def scanAux (matchAt : List Char → Option (Nat × String)) :
    Nat → List Char → Nat → List (Nat × Nat × String)
  | 0, _, _ => []
  | fuel + 1, cs, i =>
    match cs with
    | [] => []
    | _ :: rest =>
      match matchAt cs with
      | some lv => (i, i + lv.1 - 1, lv.2) :: scanAux matchAt fuel (cs.drop lv.1) (i + lv.1)
      | none => scanAux matchAt fuel rest (i + 1)

def scanLinks (cs : List Char) : List (Nat × Nat × String) :=
  scanAux matchLinkAt cs.length cs 0

def scanMentions (cs : List Char) : List (Nat × Nat × String) :=
  scanAux matchMentionAt cs.length cs 0

inductive RKind where
  | emote
  | link
  | mention
  deriving DecidableEq, Repr

/-- An entry of the source's `allRanges` array.  The source's `end` field is
called `stop` (`end` is a Lean keyword). -/

structure Range where
  kind : RKind
  start : Nat
  stop : Nat
  value : String
  data : Option EmoteAnn
  deriving DecidableEq, Repr

/-- `emote.positions[0]` for each annotation — the range list the overlap
checks consult. -/

def emoteRanges (emotes : List EmoteAnn) : List (Nat × Nat × EmoteAnn) :=
  emotes.filterMap (fun em => em.positions.head?.map (fun p => (p.1, p.2, em)))

/-- The source's interval-intersection test `start <= eEnd && end >= eStart`. -/

def overlapsPair (s e es ee : Nat) : Bool :=
  decide (s ≤ ee) && decide (e ≥ es)

/-- The emote entries pushed onto `allRanges` (`value` is
`messageText.substring(start, end + 1)`). -/

def emotePart (text : List Char) (emotes : List EmoteAnn) : List Range :=
  (emoteRanges emotes).map (fun er =>
    ⟨.emote, er.1, er.2.1, String.mk ((text.drop er.1).take (er.2.1 + 1 - er.1)),
      some er.2.2⟩)

/-- Link ranges that survive the emote-overlap check. -/

def keptLinks (text : List Char) (emotes : List EmoteAnn) : List (Nat × Nat × String) :=
  (scanLinks text).filter (fun lr =>
    !((emoteRanges emotes).any (fun er => overlapsPair lr.1 lr.2.1 er.1 er.2.1)))

def linkPart (text : List Char) (emotes : List EmoteAnn) : List Range :=
  (keptLinks text emotes).map (fun lr => ⟨.link, lr.1, lr.2.1, lr.2.2, none⟩)

/-- Mention ranges that survive both the emote- and the link-overlap check
(the latter against all detected links, not only surviving ones). -/

def keptMentions (text : List Char) (emotes : List EmoteAnn) : List (Nat × Nat × String) :=
  (scanMentions text).filter (fun mr =>
    !((emoteRanges emotes).any (fun er => overlapsPair mr.1 mr.2.1 er.1 er.2.1)) &&
    !((scanLinks text).any (fun lr => overlapsPair mr.1 mr.2.1 lr.1 lr.2.1)))

def mentionPart (text : List Char) (emotes : List EmoteAnn) : List Range :=
  (keptMentions text emotes).map (fun mr => ⟨.mention, mr.1, mr.2.1, mr.2.2, none⟩)

/-- `allRanges` after the three collection loops, in push order. -/

def allRanges (text : List Char) (emotes : List EmoteAnn) : List Range :=
  emotePart text emotes ++ linkPart text emotes ++ mentionPart text emotes

/-- Stable insertion for `allRanges.sort((a, b) => a.start - b.start)`. -/

def insortStart (x : Range) : List Range → List Range
  | [] => [x]
  | y :: ys => if y.start ≤ x.start then y :: insortStart x ys else x :: y :: ys

/-- The resolved, start-sorted range list the emission loop walks. -/

def resolvedRanges (text : List Char) (emotes : List EmoteAnn) : List Range :=
  (allRanges text emotes).foldl (fun acc x => insortStart x acc) []

/-- One output token of the tokenizer. -/

inductive Tok where
  | text (s : String)
  | emote (name url : String)
  | link (url : String)
  | mention (user : String)
  deriving DecidableEq, Repr

/-- The emission loop: literal text for the gap before each range, then the
typed token, with the cursor jumping to `token.end + 1`; a final literal for
the tail. -/

def emitAux (text : List Char) : List Range → Nat → List Tok
  | [], idx =>
    if idx < text.length then [.text (String.mk (text.drop idx))] else []
  | r :: rest, idx =>
    let pre : List Tok :=
      if idx < r.start then [.text (String.mk ((text.drop idx).take (r.start - idx)))]
      else []
    let tok : Tok :=
      match r.kind with
      | .emote =>
        let em := r.data.getD ⟨"", "", []⟩
        .emote em.name em.url
      | .link => .link r.value
      | .mention => .mention r.value
    pre ++ tok :: emitAux text rest (r.stop + 1)

/-- The token stream of `parseMessageWithMentions(messageText, emotes)`
(`!messageText` short-circuits to the empty output). -/

def messageTokens (text : List Char) (emotes : List EmoteAnn) : List Tok :=
  if text.isEmpty then [] else emitAux text (resolvedRanges text emotes) 0

/-! ### Tokenizer range lemmas -/

abbrev SortedByStart (rs : List Range) : Prop :=
  rs.Pairwise (fun a b => a.start ≤ b.start)

abbrev RangesDisjoint (rs : List Range) : Prop :=
  rs.Pairwise (fun a b => ¬(a.start ≤ b.stop ∧ b.start ≤ a.stop))

/-- The spec's precondition on adapter-produced emote annotations: ranges
are well-formed and pairwise non-overlapping. -/

abbrev EmoteAnnsWellFormed (emotes : List EmoteAnn) : Prop :=
  (∀ er ∈ emoteRanges emotes, er.1 ≤ er.2.1) ∧
  (emoteRanges emotes).Pairwise (fun p q => ¬(p.1 ≤ q.2.1 ∧ q.1 ≤ p.2.1))

/-! ## Polling-adapter message decoder — `src/unnamed/part_000` `extractTextMessage`

The decoder walks `renderer.message.runs`, appending text runs verbatim and
rendering each emoji run either as literal `<img …>` markup (consuming one
logical character of the position cursor `currIdx`) or as a `:name:` textual
fallback (consuming `name.length + 2`), collecting emote tokens with
positions `[currIdx, currIdx + 1]` as it goes; it then rewrites literal
occurrences of opaque emote identifiers (the regex
`/UC[\w-]{21}[AQgw]\/[A-Za-z0-9_-]+|face-[a-z-]+/g`) into `:name:` form,
and finally truncates the assembled string to 300 characters plus an
ellipsis.  Author/badge/timestamp extraction is independent of the message
text and is not modeled.  JS object fields are `Option`s; truthiness of a
string field is non-emptiness. -/

structure EmojiImage where
  thumbnails : List String
  url : Option String
  deriving DecidableEq, Repr

structure EmojiData where
  image : Option EmojiImage
  shortcuts : List String
  alt : Option String
  unicode : Option String
  emojiId : Option String
  deriving DecidableEq, Repr

inductive YTRun where
  | text (s : String)
  | emoji (e : EmojiData)
  deriving DecidableEq, Repr

structure YTEmote where
  name : String
  url : String
  positions : List (Nat × Nat)
  deriving DecidableEq, Repr

def jsTruthy : Option String → Bool
  | some s => !s.isEmpty
  | none => false

def optStr : Option String → String
  | some s => s
  | none => ""

def recGet (m : List (String × String)) (k : String) : Option String :=
  (m.find? (fun p => p.1 == k)).map (fun p => p.2)

def lastSegment (s : String) : String :=
  String.mk ((splitChar '/' s.data).getLastD [])

def emojiUrlBase (e : EmojiData) : String :=
  match e.image with
  | some img =>
    if img.thumbnails.length > 0 then img.thumbnails.getLastD ""
    else if jsTruthy img.url then optStr img.url
    else ""
  | none => ""

def emojiName (e : EmojiData) : String :=
  if e.shortcuts.length > 0 then e.shortcuts.headD ""
  else if jsTruthy e.alt then optStr e.alt
  else if jsTruthy e.unicode then optStr e.unicode
  else if jsTruthy e.emojiId then optStr e.emojiId
  else "emoji"

def emojiResolveUrl (e : EmojiData) (emoteMap : List (String × String)) : String :=
  let url := emojiUrlBase e
  let name := emojiName e
  if url.isEmpty then
    if !name.isEmpty && jsTruthy (recGet emoteMap name) then
      optStr (recGet emoteMap name)
    else if jsTruthy e.emojiId && jsTruthy (recGet emoteMap (optStr e.emojiId)) then
      optStr (recGet emoteMap (optStr e.emojiId))
    else if jsTruthy e.emojiId then
      let parts := splitChar '/' (optStr e.emojiId).data
      if parts.length > 1 && jsTruthy (recGet emoteMap (String.mk (parts.getLastD []))) then
        optStr (recGet emoteMap (String.mk (parts.getLastD [])))
      else ""
    else ""
  else url

def imgTag (url name : String) : String :=
  "<img src=\"" ++ url ++ "\" alt=\":" ++ name ++
    ":\" class=\"yt-emote\" style=\"height:1em;vertical-align:-0.2em;\" />"

def assembleRuns (runs : List YTRun) (emoteMap : List (String × String)) :
    String × List YTEmote :=
  let r := runs.foldl
    (fun (acc : String × List YTEmote × Nat) (run : YTRun) =>
      match run with
      | .text s => (acc.1 ++ s, acc.2.1, acc.2.2 + s.length)
      | .emoji e =>
        let url := emojiResolveUrl e emoteMap
        let name := emojiName e
        if !url.isEmpty then
          (acc.1 ++ imgTag url name,
           acc.2.1 ++ [⟨name, url, [(acc.2.2, acc.2.2 + 1)]⟩],
           acc.2.2 + 1)
        else
          (acc.1 ++ ":" ++ name ++ ":", acc.2.1, acc.2.2 + name.length + 2))
    ("", [], 0)
  (r.1, r.2.1)

def wordDashChar (c : Char) : Bool := isWordChar c || c = '-'

def lowerDashChar (c : Char) : Bool := (decide ('a' ≤ c) && decide (c ≤ 'z')) || c = '-'

def matchIdAt (cs : List Char) : Option Nat :=
  let alt1 : Option Nat :=
    match cs with
    | 'U' :: 'C' :: rest =>
      let block := rest.take 21
      if block.length = 21 && block.all wordDashChar then
        match rest.drop 21 with
        | c24 :: '/' :: rest2 =>
          if ['A', 'Q', 'g', 'w'].contains c24 then
            let run := rest2.takeWhile wordDashChar
            if run.isEmpty then none else some (25 + run.length)
          else none
        | _ => none
      else none
    | _ => none
  match alt1 with
  | some n => some n
  | none =>
    if matchesLit "face-".data cs then
      let run := (cs.drop 5).takeWhile lowerDashChar
      if run.isEmpty then none else some (5 + run.length)
    else none

def stripColons (s : String) : String :=
  let l := s.data.dropWhile (fun c => c == ':')
  String.mk ((l.reverse.dropWhile (fun c => c == ':')).reverse)

def derivedName (matched : String) (emojiList : Option (List EmojiData))
    (emoteNameMap : Option (List (String × String))) : String :=
  let name1 : String :=
    match emojiList with
    | some el =>
      let obj :=
        match el.find? (fun e => e.emojiId == some matched) with
        | some o => some o
        | none => el.find? (fun e => e.emojiId == some (lastSegment matched))
      match obj with
      | some o =>
        if o.shortcuts.length > 0 then o.shortcuts.headD ""
        else if jsTruthy o.alt then optStr o.alt
        else if jsTruthy o.unicode then optStr o.unicode
        else if jsTruthy o.emojiId then lastSegment (optStr o.emojiId)
        else ""
      | none => ""
    | none => ""
  let name2 : String :=
    if name1.isEmpty then
      match emoteNameMap with
      | some nm =>
        if jsTruthy (recGet nm matched) then optStr (recGet nm matched)
        else
          let key := lastSegment matched
          if !key.isEmpty && jsTruthy (recGet nm key) then optStr (recGet nm key)
          else ""
      | none => ""
    else name1
  let name3 := if name2.isEmpty then lastSegment matched else name2
  stripColons name3

def replaceIdsAux (emojiList : Option (List EmojiData))
    (emoteNameMap : Option (List (String × String))) :
    Nat → List Char → List Char
  | 0, _ => []
  | fuel + 1, cs =>
    match cs with
    | [] => []
    | c :: rest =>
      match matchIdAt cs with
      | some n =>
        (":" ++ derivedName (String.mk (cs.take n)) emojiList emoteNameMap ++ ":").data
          ++ replaceIdsAux emojiList emoteNameMap fuel (cs.drop n)
      | none => c :: replaceIdsAux emojiList emoteNameMap fuel rest

def replaceIds (s : String) (emojiList : Option (List EmojiData))
    (emoteNameMap : Option (List (String × String))) : String :=
  String.mk (replaceIdsAux emojiList emoteNameMap s.data.length s.data)

def truncate300 (s : String) : String :=
  if s.length > 300 then String.mk (s.data.take 300) ++ "…" else s

def extractTextMessage (runs : List YTRun) (emoteMap : List (String × String))
    (emojiList : Option (List EmojiData))
    (emoteNameMap : Option (List (String × String))) : String × List YTEmote :=
  let asm := assembleRuns runs emoteMap
  (truncate300 (replaceIds asm.1 emojiList emoteNameMap), asm.2)

/-- A decoded message whose runs are a 350-character text run followed by an
image emoji run — the failing input for C6. -/

def longRuns : List YTRun :=
  [.text (String.mk (List.replicate 350 'a')),
   .emoji ⟨some ⟨["u"], none⟩, ["w"], none, none, none⟩]

/-! ## Theorems -/

/-! ### Sorting lemmas -/

theorem insortTs_perm (x : Msg) (l : List Msg) : List.Perm (insortTs x l) (x :: l) := by
  induction l with
  | nil => simp [insortTs]
  | cons y ys ih =>
    by_cases h : y.timestamp ≤ x.timestamp
    · simp only [insortTs, if_pos h]
      exact (ih.cons y).trans (List.Perm.swap x y ys)
    · simp [insortTs, if_neg h]

theorem sortByTs_perm (l : List Msg) : List.Perm (sortByTs l) l := by
  suffices h : ∀ (l acc : List Msg),
      List.Perm (l.foldl (fun acc x => insortTs x acc) acc) (acc ++ l) by
    simpa using h l []
  intro l
  induction l with
  | nil => intro acc; simp
  | cons m t ih =>
    intro acc
    have h1 : List.Perm (t.foldl (fun acc x => insortTs x acc) (insortTs m acc))
        (insortTs m acc ++ t) := ih (insortTs m acc)
    have h2 : List.Perm (insortTs m acc ++ t) ((m :: acc) ++ t) :=
      (insortTs_perm m acc).append_right t
    have h3 : List.Perm ((m :: acc) ++ t) (acc ++ m :: t) := by
      simpa using (@List.perm_middle _ m acc t).symm
    exact (h1.trans h2).trans h3

theorem insortTs_sorted (x : Msg) (l : List Msg) (h : TsSorted l) :
    TsSorted (insortTs x l) := by
  induction l with
  | nil => simp [insortTs, TsSorted]
  | cons y ys ih =>
    rcases h with _ | ⟨hy, hys⟩
    by_cases hle : y.timestamp ≤ x.timestamp
    · simp only [insortTs, if_pos hle]
      refine List.Pairwise.cons ?_ (ih hys)
      intro z hz
      have hz' := (insortTs_perm x ys).mem_iff.mp hz
      rcases List.mem_cons.mp hz' with rfl | hz''
      · exact hle
      · exact hy z hz''
    · simp only [insortTs, if_neg hle]
      have hxle : x.timestamp ≤ y.timestamp := Nat.le_of_not_le hle
      refine List.Pairwise.cons ?_ (List.Pairwise.cons hy hys)
      intro z hz
      rcases List.mem_cons.mp hz with rfl | hz'
      · exact hxle
      · exact Nat.le_trans hxle (hy z hz')

theorem sortByTs_sorted (l : List Msg) : TsSorted (sortByTs l) := by
  suffices h : ∀ (l acc : List Msg), TsSorted acc →
      TsSorted (l.foldl (fun acc x => insortTs x acc) acc) by
    exact h l [] (by simp [TsSorted])
  intro l
  induction l with
  | nil => intro acc hacc; simpa using hacc
  | cons m t ih => intro acc hacc; exact ih (insortTs m acc) (insortTs_sorted m acc hacc)

theorem insortTs_append_of_le (x : Msg) (l : List Msg)
    (h : ∀ y ∈ l, y.timestamp ≤ x.timestamp) : insortTs x l = l ++ [x] := by
  induction l with
  | nil => rfl
  | cons y ys ih =>
    have hy : y.timestamp ≤ x.timestamp := h y (by simp)
    simp only [insortTs, if_pos hy, List.cons_append, List.cons.injEq, true_and]
    exact ih (fun z hz => h z (by simp [hz]))

theorem sortByTs_of_sorted (l : List Msg) (h : TsSorted l) : sortByTs l = l := by
  suffices hgen : ∀ (l acc : List Msg), TsSorted (acc ++ l) →
      l.foldl (fun acc x => insortTs x acc) acc = acc ++ l by
    simpa using hgen l [] (by simpa using h)
  intro l
  induction l with
  | nil => intro acc _; simp
  | cons m t ih =>
    intro acc hacc
    have hle : ∀ y ∈ acc, y.timestamp ≤ m.timestamp := by
      intro y hy
      have := (List.pairwise_append.mp hacc).2.2
      exact this y hy m (by simp)
    have hstep : insortTs m acc = acc ++ [m] := insortTs_append_of_le m acc hle
    calc (m :: t).foldl (fun acc x => insortTs x acc) acc
        = t.foldl (fun acc x => insortTs x acc) (insortTs m acc) := rfl
      _ = t.foldl (fun acc x => insortTs x acc) (acc ++ [m]) := by rw [hstep]
      _ = (acc ++ [m]) ++ t := ih (acc ++ [m]) (by simpa using hacc)
      _ = acc ++ m :: t := by simp

theorem sliceLast_sublist (n : Nat) (l : List Msg) : (sliceLast n l).Sublist l :=
  List.drop_sublist _ l

theorem sliceLast_length_le (n : Nat) (l : List Msg) : (sliceLast n l).length ≤ n := by
  simp only [sliceLast, List.length_drop]
  omega

theorem sliceLast_eq_self (n : Nat) (l : List Msg) (h : l.length ≤ n) :
    sliceLast n l = l := by
  simp only [sliceLast]
  have : l.length - n = 0 := by omega
  simp [this]

theorem mapSet_ids (m : List Msg) (msg : Msg) :
    ids (mapSet m msg) =
      if m.any (fun x => x.id == msg.id) then ids m else ids m ++ [msg.id] := by
  unfold mapSet
  by_cases h : (m.any fun x => x.id == msg.id) = true
  · rw [if_pos h, if_pos h]
    simp only [ids, List.map_map]
    refine List.map_congr_left ?_
    intro x _
    simp only [Function.comp_apply]
    by_cases hx : x.id = msg.id
    · simp [hx]
    · simp [hx]
  · rw [if_neg h, if_neg h]
    simp [ids]

theorem mapSet_ids_nodup (m : List Msg) (msg : Msg) (h : (ids m).Nodup) :
    (ids (mapSet m msg)).Nodup := by
  rw [mapSet_ids]
  by_cases hc : m.any (fun x => x.id == msg.id)
  · simpa [hc] using h
  · have hnot : msg.id ∉ ids m := by
      intro hmem
      rcases List.mem_map.mp hmem with ⟨x, hx, hxid⟩
      exact hc (List.any_eq_true.mpr ⟨x, hx, beq_iff_eq.mpr hxid⟩)
    simp only [if_neg hc]
    exact List.Nodup.append h (List.nodup_singleton _)
      (List.disjoint_singleton.mpr hnot)

theorem foldl_mapSet_ids_nodup (b : List Msg) :
    ∀ (acc : List Msg), (ids acc).Nodup → (ids (b.foldl mapSet acc)).Nodup := by
  induction b with
  | nil => intro acc h; simpa using h
  | cons m t ih => intro acc h; exact ih (mapSet acc m) (mapSet_ids_nodup acc m h)

theorem dedupById_ids_nodup (l : List Msg) : (ids (dedupById l)).Nodup :=
  foldl_mapSet_ids_nodup l [] (by simp [ids])

theorem ids_perm_of_perm {l l' : List Msg} (h : List.Perm l l') :
    List.Perm (ids l) (ids l') :=
  h.map Msg.id

theorem sortByTs_ids_nodup (l : List Msg) (h : (ids l).Nodup) :
    (ids (sortByTs l)).Nodup :=
  ((ids_perm_of_perm (sortByTs_perm l)).nodup_iff).mpr h

theorem sliceLast_ids_nodup (n : Nat) (l : List Msg) (h : (ids l).Nodup) :
    (ids (sliceLast n l)).Nodup :=
  List.Nodup.sublist ((sliceLast_sublist n l).map Msg.id) h

theorem filter_ids_nodup (s : List Msg) (p : Msg → Bool) (h : (ids s).Nodup) :
    (ids (s.filter p)).Nodup :=
  List.Nodup.sublist ((List.filter_sublist s).map Msg.id) h

/-- Every view produced by a store operation has pairwise-distinct ids,
provided the incoming state does. -/

theorem applyOp_ids_nodup (s : List Msg) (op : StoreOp) (h : (ids s).Nodup) :
    (ids (applyOp s op)).Nodup := by
  cases op with
  | add m =>
    refine sliceLast_ids_nodup _ _ (sortByTs_ids_nodup _ ?_)
    have hfil : (ids (s.filter (fun x => ¬ x.id == m.id))).Nodup :=
      filter_ids_nodup s _ h
    have hnot : m.id ∉ ids (s.filter (fun x => ¬ x.id == m.id)) := by
      intro hmem
      rcases List.mem_map.mp hmem with ⟨x, hx, hxid⟩
      have := List.of_mem_filter hx
      simp [hxid] at this
    simpa [ids] using
      List.Nodup.append hfil (List.nodup_singleton _) (List.disjoint_singleton.mpr hnot)
  | addBatch b =>
    exact sliceLast_ids_nodup _ _ (sortByTs_ids_nodup _ (dedupById_ids_nodup _))

theorem applyOps_ids_nodup (ops : List StoreOp) : (ids (applyOps ops)).Nodup := by
  suffices h : ∀ (ops : List StoreOp) (s : List Msg), (ids s).Nodup →
      (ids (ops.foldl applyOp s)).Nodup by
    exact h ops [] (by simp [ids])
  intro ops
  induction ops with
  | nil => intro s h; simpa using h
  | cons op rest ih => intro s h; exact ih (applyOp s op) (applyOp_ids_nodup s op h)

/-! ### View shape lemmas -/

theorem applyOp_eq_slice_working (s : List Msg) (op : StoreOp) :
    applyOp s op = sliceLast 100 (workingSorted s op) := by
  cases op <;> rfl

theorem workingSorted_sorted (s : List Msg) (op : StoreOp) :
    TsSorted (workingSorted s op) := by
  cases op <;> exact sortByTs_sorted _

theorem TsSorted.drop {l : List Msg} (h : TsSorted l) (n : Nat) :
    TsSorted (l.drop n) :=
  h.sublist (List.drop_sublist n l)

theorem applyOp_sorted (s : List Msg) (op : StoreOp) : TsSorted (applyOp s op) := by
  rw [applyOp_eq_slice_working]
  exact (workingSorted_sorted s op).drop _

theorem applyOp_length_le (s : List Msg) (op : StoreOp) :
    (applyOp s op).length ≤ 100 := by
  rw [applyOp_eq_slice_working]
  exact sliceLast_length_le _ _

theorem mem_take_of_not_mem_drop {x : Msg} {l : List Msg} {k : Nat}
    (hx : x ∈ l) (hnd : x ∉ l.drop k) : x ∈ l.take k := by
  rw [← List.take_append_drop k l] at hx
  rcases List.mem_append.mp hx with h | h
  · exact h
  · exact absurd h hnd

/-- C1: every sequence of add/addBatch operations leaves the view sorted by
timestamp ascending with at most 100 entries, and the entries a mutation
evicts from its sorted working set are all no newer (by that order) than
every entry it keeps. -/

theorem store_view_sorted_bounded_evicts_oldest :
    (∀ ops : List StoreOp, TsSorted (applyOps ops) ∧ (applyOps ops).length ≤ 100) ∧
    (∀ (s : List Msg) (op : StoreOp) (x y : Msg),
      x ∈ workingSorted s op → x ∉ applyOp s op → y ∈ applyOp s op →
      x.timestamp ≤ y.timestamp) := by
  constructor
  · intro ops
    suffices h : ∀ (ops : List StoreOp) (s : List Msg),
        TsSorted s → s.length ≤ 100 →
        TsSorted (ops.foldl applyOp s) ∧ (ops.foldl applyOp s).length ≤ 100 by
      exact h ops [] (by simp [TsSorted]) (by simp)
    intro ops
    induction ops with
    | nil => intro s h1 h2; exact ⟨h1, h2⟩
    | cons op rest ih =>
      intro s _ _
      exact ih (applyOp s op) (applyOp_sorted s op) (applyOp_length_le s op)
  · intro s op x y hxw hxv hyv
    rw [applyOp_eq_slice_working] at hxv hyv
    have hsorted : TsSorted (workingSorted s op) := workingSorted_sorted s op
    set l := workingSorted s op with hl
    have hxt : x ∈ l.take (l.length - 100) := mem_take_of_not_mem_drop hxw hxv
    have hpw := (List.pairwise_append.mp
      (by rw [List.take_append_drop (l.length - 100) l]; exact hsorted)).2.2
    exact hpw x hxt y hyv

/-- Witness for C1 at a concrete overflowing store: adding a message to a
101-message state evicts the oldest entry, which is no newer than any kept
entry. -/

theorem store_view_sorted_bounded_evicts_oldest_witness :
    wMsg 0 ∈ workingSorted wState (.add (wMsg 200)) ∧
    wMsg 0 ∉ applyOp wState (.add (wMsg 200)) ∧
    wMsg 2 ∈ applyOp wState (.add (wMsg 200)) ∧
    (wMsg 0).timestamp ≤ (wMsg 2).timestamp :=
  ⟨by decide, by decide, by decide,
    store_view_sorted_bounded_evicts_oldest.2 wState (.add (wMsg 200)) (wMsg 0) (wMsg 2)
      (by decide) (by decide) (by decide)⟩

/-- Removing the entries carrying an id that does occur in the store makes
the store strictly shorter (no distinctness of ids needed: at least one
entry is removed). -/

theorem filter_length_lt_of_mem_ids (s : List Msg) (m : Msg) (h : m.id ∈ ids s) :
    (s.filter (fun z => ¬ z.id == m.id)).length < s.length := by
  induction s with
  | nil => simp [ids] at h
  | cons a t ih =>
    by_cases ha : a.id = m.id
    · have hdrop : (a :: t).filter (fun z => ¬ z.id == m.id) =
          t.filter (fun z => ¬ z.id == m.id) := by
        rw [List.filter_cons_of_neg (by simp [ha])]
      rw [hdrop]
      have := List.length_filter_le (fun z => ¬ z.id == m.id) t
      simp only [List.length_cons]
      omega
    · have hkeep : (a :: t).filter (fun z => ¬ z.id == m.id) =
          a :: t.filter (fun z => ¬ z.id == m.id) := by
        rw [List.filter_cons_of_pos (by simp [ha])]
      have hmt : m.id ∈ ids t := by
        have hidc : ids (a :: t) = a.id :: ids t := rfl
        rw [hidc] at h
        rcases List.mem_cons.mp h with he | h
        · exact absurd he.symm ha
        · exact h
      rw [hkeep]
      simp only [List.length_cons]
      exact Nat.succ_lt_succ (ih hmt)

/-- The added message is kept whenever the filtered store leaves room for it
inside the 100-message window. -/

theorem mem_addMessage_of_filter_short (s : List Msg) (m : Msg)
    (h : (s.filter (fun z => ¬ z.id == m.id)).length ≤ 99) :
    m ∈ addMessage m s := by
  have hmem : m ∈ (s.filter (fun z => ¬ z.id == m.id)) ++ [m] := by simp
  have hperm := sortByTs_perm ((s.filter (fun z => ¬ z.id == m.id)) ++ [m])
  have hlen2 : (sortByTs ((s.filter (fun z => ¬ z.id == m.id)) ++ [m])).length ≤ 100 := by
    rw [hperm.length_eq]
    simp only [List.length_append, List.length_singleton]
    omega
  unfold addMessage
  rw [sliceLast_eq_self _ _ hlen2]
  exact hperm.mem_iff.mpr hmem

/-- C2: adding a message whose id is already present replaces the prior
entry — every view entry carrying the new message's id is the new message
itself, and on every store state within the retention window (length ≤ 100,
the full steady state included) whose ids contain the new message's id, the
new message is in the resulting view; a message with a fresh id is likewise
kept whenever the store has room (length ≤ 99); and after any operation
sequence the view's ids are pairwise distinct. -/

theorem addMessage_dedup_replaces :
    (∀ (s : List Msg) (m x : Msg), x ∈ addMessage m s → x.id = m.id → x = m) ∧
    (∀ (s : List Msg) (m : Msg), s.length ≤ 100 → m.id ∈ ids s →
      m ∈ addMessage m s) ∧
    (∀ (s : List Msg) (m : Msg), s.length ≤ 99 → m ∈ addMessage m s) ∧
    (∀ ops : List StoreOp, (ids (applyOps ops)).Nodup) := by
  refine ⟨?_, ?_, ?_, applyOps_ids_nodup⟩
  · intro s m x hx hid
    have hx1 : x ∈ sortByTs ((s.filter (fun z => ¬ z.id == m.id)) ++ [m]) :=
      (sliceLast_sublist 100 _).mem hx
    have hx2 : x ∈ (s.filter (fun z => ¬ z.id == m.id)) ++ [m] :=
      (sortByTs_perm _).mem_iff.mp hx1
    rcases List.mem_append.mp hx2 with h | h
    · have := List.of_mem_filter h
      simp [hid] at this
    · simpa using h
  · intro s m hlen hmem
    apply mem_addMessage_of_filter_short
    have := filter_length_lt_of_mem_ids s m hmem
    omega
  · intro s m hlen
    apply mem_addMessage_of_filter_short
    have := List.length_filter_le (fun z => ¬ z.id == m.id) s
    omega

/-- Witness for C2: the replacement message is kept on a store filled to
exactly the 100-message window, and every view entry with the replaced id
is the replacement itself. -/

theorem addMessage_dedup_replaces_witness :
    (⟨"50", "user", "replacement", 500⟩ : Msg) ∈
      addMessage ⟨"50", "user", "replacement", 500⟩ wState100 ∧
    (⟨"a", "user", "new", 7⟩ : Msg) ∈ addMessage ⟨"a", "user", "new", 7⟩ [⟨"a", "user", "old", 5⟩] ∧
    (⟨"a", "user", "new", 7⟩ : Msg) = ⟨"a", "user", "new", 7⟩ :=
  ⟨addMessage_dedup_replaces.2.1 wState100 ⟨"50", "user", "replacement", 500⟩
     (by decide) (by decide),
   addMessage_dedup_replaces.2.2.1 [⟨"a", "user", "old", 5⟩] ⟨"a", "user", "new", 7⟩ (by decide),
   addMessage_dedup_replaces.1 [⟨"a", "user", "old", 5⟩] ⟨"a", "user", "new", 7⟩
     ⟨"a", "user", "new", 7⟩
     (addMessage_dedup_replaces.2.2.1 [⟨"a", "user", "old", 5⟩] ⟨"a", "user", "new", 7⟩ (by decide))
     rfl⟩

theorem lastOcc_append (s b : List Msg) (i : String) :
    lastOcc (s ++ b) i =
      match lastOcc b i with
      | some v => some v
      | none => lastOcc s i := by
  induction s with
  | nil =>
    simp only [List.nil_append]
    cases lastOcc b i <;> rfl
  | cons m t ih =>
    have h1 : lastOcc ((m :: t) ++ b) i =
        match lastOcc (t ++ b) i with
        | some v => some v
        | none => if m.id == i then some m else none := rfl
    rw [h1, ih]
    cases lastOcc b i with
    | some v => rfl
    | none => rfl

theorem lastOcc_eq_none_of_not_mem (b : List Msg) (i : String) (h : i ∉ ids b) :
    lastOcc b i = none := by
  induction b with
  | nil => rfl
  | cons m t ih =>
    have hm : ¬ m.id = i := by
      intro he; exact h (by simp [ids, he])
    have ht : i ∉ ids t := fun hmem => h (by simp [ids] at hmem ⊢; tauto)
    simp [lastOcc, ih ht, hm]

theorem mapSet_mem_id (A : List Msg) (m : Msg) : m.id ∈ ids (mapSet A m) := by
  rw [mapSet_ids]
  by_cases h : (A.any fun x => x.id == m.id) = true
  · rcases List.any_eq_true.mp h with ⟨x, hx, hbe⟩
    rw [if_pos h]
    exact (beq_iff_eq.mp hbe) ▸ List.mem_map_of_mem Msg.id hx
  · rw [if_neg h]
    exact List.mem_append_right _ (by simp)

theorem mapSet_ids_superset (A : List Msg) (m : Msg) {i : String} (h : i ∈ ids A) :
    i ∈ ids (mapSet A m) := by
  rw [mapSet_ids]
  by_cases hc : (A.any fun x => x.id == m.id) = true
  · simpa [hc] using h
  · simp only [if_neg hc]
    exact List.mem_append_left _ h

theorem foldl_mapSet_ids_superset (b : List Msg) :
    ∀ (A : List Msg) {i : String}, i ∈ ids A → i ∈ ids (b.foldl mapSet A) := by
  induction b with
  | nil => intro A i h; simpa using h
  | cons m t ih => intro A i h; exact ih (mapSet A m) (mapSet_ids_superset A m h)

theorem mem_ids_foldl_mapSet (b : List Msg) :
    ∀ (A : List Msg) {i : String}, i ∈ ids b → i ∈ ids (b.foldl mapSet A) := by
  induction b with
  | nil => intro A i h; simp [ids] at h
  | cons m t ih =>
    intro A i h
    rcases List.mem_cons.mp h with he | ht
    · exact foldl_mapSet_ids_superset t (mapSet A m) (he ▸ mapSet_mem_id A m)
    · exact ih (mapSet A m) ht

/-- Folding `Map.set` over a batch whose ids are all already present only
rewrites values in place: the result is the base list with each entry
replaced by the last occurrence of its id in the batch, if any. -/

theorem foldl_mapSet_of_ids_covered (b : List Msg) :
    ∀ (A : List Msg), (∀ m ∈ b, ∃ x ∈ A, x.id = m.id) →
      b.foldl mapSet A = A.map (fun x => (lastOcc b x.id).getD x) := by
  induction b with
  | nil =>
    intro A _
    simp [lastOcc, List.map_id']
  | cons m t ih =>
    intro A hcov
    have hany : (A.any fun x => x.id == m.id) = true := by
      rcases hcov m (by simp) with ⟨x, hx, hxid⟩
      exact List.any_eq_true.mpr ⟨x, hx, beq_iff_eq.mpr hxid⟩
    have hstep : mapSet A m = A.map (fun x => if x.id == m.id then m else x) := by
      unfold mapSet
      rw [if_pos hany]
    have hid_pres : ∀ x : Msg, ((fun x => if x.id == m.id then m else x) x).id = x.id := by
      intro x
      by_cases hx : x.id = m.id
      · simp [hx]
      · simp [hx]
    have hcov' : ∀ z ∈ t, ∃ x ∈ A.map (fun x => if x.id == m.id then m else x), x.id = z.id := by
      intro z hz
      rcases hcov z (by simp [hz]) with ⟨x, hx, hxid⟩
      exact ⟨_, List.mem_map_of_mem _ hx, (hid_pres x).trans hxid⟩
    calc (m :: t).foldl mapSet A
        = t.foldl mapSet (mapSet A m) := rfl
      _ = t.foldl mapSet (A.map (fun x => if x.id == m.id then m else x)) := by rw [hstep]
      _ = (A.map (fun x => if x.id == m.id then m else x)).map
            (fun x => (lastOcc t x.id).getD x) := ih _ hcov'
      _ = A.map (fun x => (lastOcc (m :: t) x.id).getD x) := by
          rw [List.map_map]
          refine List.map_congr_left ?_
          intro x _
          simp only [Function.comp_apply, hid_pres x, lastOcc]
          cases hl : lastOcc t x.id with
          | some v => rfl
          | none =>
            by_cases hx : x.id = m.id
            · simp [hx]
            · have : ¬ m.id = x.id := fun he => hx he.symm
              simp [hx, this]

/-- Every member of a `Map.set` fold whose id occurs in the batch is the
batch's last occurrence of that id. -/

theorem lastOcc_of_mem_foldl (b : List Msg) :
    ∀ (A : List Msg) (x : Msg), x ∈ b.foldl mapSet A → x.id ∈ ids b →
      lastOcc b x.id = some x := by
  induction b using List.reverseRecOn with
  | nil =>
    intro A x _ hid
    simp [ids] at hid
  | append_singleton b m ih =>
    intro A x hx hid
    rw [List.foldl_append] at hx
    simp only [List.foldl_cons, List.foldl_nil] at hx
    have hlast : ∀ i : String, lastOcc (b ++ [m]) i =
        if m.id == i then some m else lastOcc b i := by
      intro i
      rw [lastOcc_append]
      by_cases hm : m.id = i
      · simp [lastOcc, hm]
      · simp [lastOcc, hm]
    set F := b.foldl mapSet A with hF
    have hxm : x = m → lastOcc (b ++ [m]) x.id = some x := by
      intro he
      rw [hlast, he]
      simp
    have hmemF : x ∈ F → x.id ≠ m.id → lastOcc (b ++ [m]) x.id = some x := by
      intro hmem hne
      have hidb : x.id ∈ ids b := by
        have : ids (b ++ [m]) = ids b ++ [m.id] := by simp [ids]
        rw [this] at hid
        rcases List.mem_append.mp hid with h | h
        · exact h
        · simp at h; exact absurd h hne
      rw [hlast]
      have : ¬ m.id = x.id := fun he => hne he.symm
      simp only [beq_iff_eq, this, if_false]
      exact ih A x hmem hidb
    unfold mapSet at hx
    by_cases hc : (F.any fun z => z.id == m.id) = true
    · rw [if_pos hc] at hx
      rcases List.mem_map.mp hx with ⟨y, hy, hyx⟩
      by_cases hym : y.id = m.id
      · have : x = m := by
          rw [← hyx]
          simp [hym]
        exact hxm this
      · have hxy : x = y := by
          rw [← hyx]
          simp [hym]
        refine hmemF (hxy ▸ hy) ?_
        rw [hxy]
        exact hym
    · rw [if_neg hc] at hx
      rcases List.mem_append.mp hx with h | h
      · refine hmemF h ?_
        intro he
        rcases List.any_eq_true.not.mp hc with _
        exact hc (List.any_eq_true.mpr ⟨x, h, beq_iff_eq.mpr he⟩)
      · simp at h
        exact hxm h

/-- `dedupById` is the identity on a list whose ids are already pairwise
distinct. -/

theorem dedupById_eq_self (A : List Msg) (h : (ids A).Nodup) : dedupById A = A := by
  suffices hgen : ∀ (A P : List Msg), (ids (P ++ A)).Nodup → A.foldl mapSet P = P ++ A by
    simpa using hgen A [] (by simpa using h)
  intro A
  induction A with
  | nil => intro P _; simp
  | cons m t ih =>
    intro P hnd
    have hids : ids (P ++ m :: t) = ids P ++ m.id :: ids t := by simp [ids]
    rw [hids] at hnd
    have hmP : m.id ∉ ids P := by
      intro hmem
      exact (List.disjoint_of_nodup_append hnd) hmem (by simp)
    have hany : (P.any fun x => x.id == m.id) = false := by
      by_contra hne
      rcases List.any_eq_true.mp (Bool.of_not_eq_false hne) with ⟨x, hx, hbe⟩
      exact hmP ((beq_iff_eq.mp hbe) ▸ List.mem_map_of_mem Msg.id hx)
    have hstep : mapSet P m = P ++ [m] := by
      unfold mapSet
      rw [hany]
      simp
    calc (m :: t).foldl mapSet P
        = t.foldl mapSet (mapSet P m) := rfl
      _ = t.foldl mapSet (P ++ [m]) := by rw [hstep]
      _ = (P ++ [m]) ++ t := ih (P ++ [m]) (by simpa [ids] using hnd)
      _ = P ++ m :: t := by simp

/-- Re-processing messages: a batch whose ids are present, with values the
batch's last occurrences, leaves the base list unchanged. -/

theorem addMessages_ids_nodup (b s : List Msg) : (ids (addMessages b s)).Nodup :=
  sliceLast_ids_nodup _ _ (sortByTs_ids_nodup _ (dedupById_ids_nodup _))

set_option maxRecDepth 40000 in

/-- C3 counterexample: re-processing the same 101-message batch (timestamp
ties plus window overflow) changes the view — the entry evicted by the first
application is re-appended by the second and a different entry is evicted. -/

theorem addBatch_twice_ne_once :
    addMessages batch101 (addMessages batch101 []) ≠ addMessages batch101 [] := by
  decide

/-- C3 (amended): re-processing the same continuation/cursor batch twice
never duplicates a message — the view's ids stay pairwise distinct — and
whenever the deduplicated working set fits inside the 100-message retention
window the second application leaves the view unchanged (idempotence can
fail only through eviction, as the counterexample shows). -/

theorem addBatch_reprocess_no_duplicates :
    (∀ (s b : List Msg), (ids (addMessages b (addMessages b s))).Nodup) ∧
    (∀ (s b : List Msg), (dedupById (s ++ b)).length ≤ 100 →
      addMessages b (addMessages b s) = addMessages b s) := by
  constructor
  · intro s b
    exact addMessages_ids_nodup b (addMessages b s)
  · intro s b hlen
    have hDnodup : (ids (dedupById (s ++ b))).Nodup := dedupById_ids_nodup (s ++ b)
    have hsortlen : (sortByTs (dedupById (s ++ b))).length ≤ 100 := by
      rw [(sortByTs_perm _).length_eq]
      exact hlen
    have hview1 : addMessages b s = sortByTs (dedupById (s ++ b)) := by
      unfold addMessages
      exact sliceLast_eq_self _ _ hsortlen
    have hv1nodup : (ids (sortByTs (dedupById (s ++ b)))).Nodup :=
      sortByTs_ids_nodup _ hDnodup
    have hcov : ∀ m ∈ b, ∃ x ∈ sortByTs (dedupById (s ++ b)), x.id = m.id := by
      intro m hm
      have h1 : m.id ∈ ids (s ++ b) := by
        simp only [ids, List.map_append]
        exact List.mem_append_right _ (List.mem_map_of_mem Msg.id hm)
      have h2 : m.id ∈ ids (dedupById (s ++ b)) := mem_ids_foldl_mapSet (s ++ b) [] h1
      have h3 : m.id ∈ ids (sortByTs (dedupById (s ++ b))) :=
        (ids_perm_of_perm (sortByTs_perm (dedupById (s ++ b)))).mem_iff.mpr h2
      rcases List.mem_map.mp h3 with ⟨x, hx, hxid⟩
      exact ⟨x, hx, hxid⟩
    have hfix : ∀ x ∈ sortByTs (dedupById (s ++ b)), (lastOcc b x.id).getD x = x := by
      intro x hx
      cases hlo : lastOcc b x.id with
      | none => rfl
      | some v =>
        have hxD : x ∈ dedupById (s ++ b) := (sortByTs_perm _).mem_iff.mp hx
        have hxb : x.id ∈ ids b := by
          by_contra hnot
          rw [lastOcc_eq_none_of_not_mem b x.id hnot] at hlo
          exact Option.noConfusion hlo
        have hid2 : x.id ∈ ids (s ++ b) := by
          simp only [ids, List.map_append]
          exact List.mem_append_right _ hxb
        have h4 : lastOcc (s ++ b) x.id = some x :=
          lastOcc_of_mem_foldl (s ++ b) [] x hxD hid2
        rw [lastOcc_append, hlo] at h4
        simp only [Option.getD, hlo]
        exact (Option.some.inj h4)
    have hdd : dedupById (sortByTs (dedupById (s ++ b)) ++ b) =
        sortByTs (dedupById (s ++ b)) := by
      have happ : dedupById (sortByTs (dedupById (s ++ b)) ++ b) =
          b.foldl mapSet (dedupById (sortByTs (dedupById (s ++ b)))) := by
        unfold dedupById
        rw [List.foldl_append]
      rw [happ, dedupById_eq_self _ hv1nodup, foldl_mapSet_of_ids_covered b _ hcov]
      calc (sortByTs (dedupById (s ++ b))).map (fun x => (lastOcc b x.id).getD x)
          = (sortByTs (dedupById (s ++ b))).map (fun x => x) := List.map_congr_left hfix
        _ = sortByTs (dedupById (s ++ b)) := List.map_id' _
    calc addMessages b (addMessages b s)
        = addMessages b (sortByTs (dedupById (s ++ b))) := by rw [hview1]
      _ = sliceLast 100 (sortByTs (dedupById (sortByTs (dedupById (s ++ b)) ++ b))) := rfl
      _ = sliceLast 100 (sortByTs (sortByTs (dedupById (s ++ b)))) := by rw [hdd]
      _ = sliceLast 100 (sortByTs (dedupById (s ++ b))) := by
          rw [sortByTs_of_sorted _ (sortByTs_sorted _)]
      _ = sortByTs (dedupById (s ++ b)) := sliceLast_eq_self _ _ hsortlen
      _ = addMessages b s := hview1.symm

/-- Witness for the amended C3 at a small concrete batch. -/

theorem addBatch_reprocess_no_duplicates_witness :
    addMessages [⟨"b1", "user", "text", 3⟩]
        (addMessages [⟨"b1", "user", "text", 3⟩] []) =
      addMessages [⟨"b1", "user", "text", 3⟩] [] :=
  addBatch_reprocess_no_duplicates.2 [] [⟨"b1", "user", "text", 3⟩] (by decide)

theorem pollStep_halted (s : YTPollState) (o : PollOutcome) (h : s.halted = true) :
    pollStep s o = s := by
  unfold pollStep
  rw [if_pos h]

theorem runPolls_halted (s : YTPollState) (os : List PollOutcome) (h : s.halted = true) :
    runPolls s os = s := by
  induction os with
  | nil => rfl
  | cons o rest ih =>
    show runPolls (pollStep s o) rest = s
    rw [pollStep_halted s o h]
    exact ih

theorem countFails_cons (o : PollOutcome) (os : List PollOutcome) :
    countFails (o :: os) = countFails os + (match o with | .fail => 1 | .ok => 0) := by
  cases o <;> rfl

theorem runPolls_count (os : List PollOutcome) :
    ∀ s : YTPollState, s.halted = false → (runPolls s os).halted = false →
      (runPolls s os).retryCount = s.retryCount + countFails os := by
  induction os with
  | nil => intro s _ _; simp [runPolls, countFails]
  | cons o rest ih =>
    intro s hs hfin
    show (runPolls (pollStep s o) rest).retryCount = _
    by_cases hh : (pollStep s o).halted = true
    · exfalso
      have : runPolls s (o :: rest) = pollStep s o := by
        show runPolls (pollStep s o) rest = _
        exact runPolls_halted _ _ hh
      rw [this] at hfin
      rw [hfin] at hh
      exact Bool.false_ne_true hh
    · have hh' : (pollStep s o).halted = false := by
        cases hx : (pollStep s o).halted
        · rfl
        · exact absurd hx hh
      have hfin' : (runPolls (pollStep s o) rest).halted = false := hfin
      have := ih (pollStep s o) hh' hfin'
      rw [this, countFails_cons]
      cases o with
      | ok =>
        have : (pollStep s .ok).retryCount = s.retryCount := by
          unfold pollStep
          rw [if_neg (by rw [hs]; exact Bool.false_ne_true)]
        rw [this]
        have hm : (match PollOutcome.ok with
          | PollOutcome.fail => 1 | PollOutcome.ok => 0) = 0 := rfl
        rw [hm]
        omega
      | fail =>
        have : (pollStep s .fail).retryCount = s.retryCount + 1 := by
          unfold pollStep
          rw [if_neg (by rw [hs]; exact Bool.false_ne_true)]
          by_cases hge : s.retryCount + 1 ≥ maxRetries
          · rw [if_pos hge]
          · rw [if_neg hge]
        rw [this]
        have hm : (match PollOutcome.fail with
          | PollOutcome.fail => 1 | PollOutcome.ok => 0) = 1 := rfl
        rw [hm]
        omega

/-- C9 counterexample: `retryCount` is never reset by a successful poll —
after one failure followed by one success it is still 1, so it counts total
failures since `connect()`, not consecutive ones as the claim states. -/

theorem pollStep_success_does_not_reset :
    (runPolls connectedState [PollOutcome.fail, PollOutcome.ok]).retryCount ≠ 0 := by
  decide

/-- C9 (amended): once the poll chain halts it never resumes (no further
poll is ever scheduled); the failing poll that brings the cumulative count
to `maxRetries` halts the chain and marks the platform disconnected; a
successful poll leaves the count unchanged (it is not reset); and along any
non-halted trace from `connect()` the count equals the total number of
failed polls. -/

theorem poll_failure_halting :
    (∀ (s : YTPollState) (os : List PollOutcome), s.halted = true → runPolls s os = s) ∧
    (∀ s : YTPollState, s.halted = false → s.retryCount + 1 ≥ maxRetries →
      (pollStep s .fail).halted = true ∧ (pollStep s .fail).connected = false) ∧
    (∀ s : YTPollState, s.halted = false → (pollStep s .ok).retryCount = s.retryCount) ∧
    (∀ os : List PollOutcome, (runPolls connectedState os).halted = false →
      (runPolls connectedState os).retryCount = countFails os) := by
  refine ⟨runPolls_halted, ?_, ?_, ?_⟩
  · intro s hs hge
    unfold pollStep
    rw [if_neg (by rw [hs]; exact Bool.false_ne_true)]
    simp [hge]
  · intro s hs
    unfold pollStep
    rw [if_neg (by rw [hs]; exact Bool.false_ne_true)]
  · intro os hfin
    have := runPolls_count os connectedState rfl hfin
    simpa [connectedState] using this

/-- Witness for the amended C9: the fifth failure halts and disconnects,
and a one-failure trace has count 1. -/

theorem poll_failure_halting_witness :
    ((pollStep ⟨4, false, false⟩ PollOutcome.fail).halted = true ∧
      (pollStep ⟨4, false, false⟩ PollOutcome.fail).connected = false) ∧
    (runPolls connectedState [PollOutcome.fail]).retryCount = countFails [PollOutcome.fail] :=
  ⟨poll_failure_halting.2.1 ⟨4, false, false⟩ rfl (by decide),
   poll_failure_halting.2.2.2 [PollOutcome.fail] (by decide)⟩

/-! ### add(m) versus addBatch([m]) (C10) -/

theorem filter_eq_self_of_not_mem_ids (s : List Msg) (m : Msg) (h : m.id ∉ ids s) :
    s.filter (fun x => ¬ x.id == m.id) = s := by
  apply List.filter_eq_self.mpr
  intro x hx
  have hne : x.id ≠ m.id := by
    intro he
    exact h (he ▸ List.mem_map_of_mem Msg.id hx)
  simp [hne]

theorem mapSet_append_of_not_mem (A : List Msg) (m : Msg) (h : m.id ∉ ids A) :
    mapSet A m = A ++ [m] := by
  unfold mapSet
  have hany : (A.any fun x => x.id == m.id) = false := by
    by_contra hne
    have htrue : (A.any fun x => x.id == m.id) = true := by
      cases hx : A.any fun x => x.id == m.id
      · exact absurd hx hne
      · rfl
    rcases List.any_eq_true.mp htrue with ⟨x, hx, hbe⟩
    exact h ((beq_iff_eq.mp hbe) ▸ List.mem_map_of_mem Msg.id hx)
  rw [hany]
  simp

theorem dedupById_append_single (s : List Msg) (m : Msg) :
    dedupById (s ++ [m]) = mapSet (dedupById s) m := by
  unfold dedupById
  rw [List.foldl_append]
  rfl

theorem map_replace_perm (s : List Msg) (m : Msg) (hnd : (ids s).Nodup)
    (hmem : m.id ∈ ids s) :
    List.Perm (s.map (fun x => if x.id == m.id then m else x))
      (s.filter (fun x => ¬ x.id == m.id) ++ [m]) := by
  induction s with
  | nil => simp [ids] at hmem
  | cons a t ih =>
    have hndt : (ids t).Nodup := by
      have : ids (a :: t) = a.id :: ids t := rfl
      rw [this] at hnd
      exact hnd.of_cons
    have hna : a.id ∉ ids t := by
      have : ids (a :: t) = a.id :: ids t := rfl
      rw [this] at hnd
      exact (List.nodup_cons.mp hnd).1
    by_cases ha : a.id = m.id
    · have hmt : m.id ∉ ids t := ha ▸ hna
      have hmapf : t.map (fun x => if x.id == m.id then m else x) = t := by
        have : ∀ x ∈ t, (if x.id == m.id then m else x) = x := by
          intro x hx
          have : x.id ≠ m.id := by
            intro he
            exact hmt (he ▸ List.mem_map_of_mem Msg.id hx)
          simp [this]
        calc t.map (fun x => if x.id == m.id then m else x)
            = t.map (fun x => x) := List.map_congr_left this
          _ = t := List.map_id' t
      have hfa : (a :: t).filter (fun x => ¬ x.id == m.id) = t := by
        have hpa : (fun x : Msg => decide ¬(x.id == m.id) = true) a = false := by
          simp [ha]
        rw [List.filter_cons_of_neg (by simp [ha])]
        exact filter_eq_self_of_not_mem_ids t m hmt
      rw [hfa]
      have : (a :: t).map (fun x => if x.id == m.id then m else x) = m :: t := by
        simp only [List.map_cons, hmapf, ha]
        simp
      rw [this]
      exact (List.perm_append_singleton m t).symm
    · have hmt : m.id ∈ ids t := by
        have : ids (a :: t) = a.id :: ids t := rfl
        rw [this] at hmem
        rcases List.mem_cons.mp hmem with he | h
        · exact absurd he.symm ha
        · exact h
      have hfa : (a :: t).filter (fun x => ¬ x.id == m.id) =
          a :: t.filter (fun x => ¬ x.id == m.id) := by
        rw [List.filter_cons_of_pos (by simp [ha])]
      have hm : (a :: t).map (fun x => if x.id == m.id then m else x) =
          a :: t.map (fun x => if x.id == m.id then m else x) := by
        simp only [List.map_cons]
        congr 1
        simp [ha]
      rw [hfa, hm, List.cons_append]
      exact (ih hndt hmt).cons a

theorem tsSorted_eq_of_perm (A B : List Msg) (hp : List.Perm A B) (ha : TsSorted A)
    (hb : TsSorted B) (hts : (A.map Msg.timestamp).Nodup) : A = B := by
  haveI : IsAntisymm Msg (fun a b => a.timestamp < b.timestamp) :=
    ⟨fun a b h1 h2 => absurd h2 (Nat.lt_asymm h1)⟩
  have hBts : (B.map Msg.timestamp).Nodup := ((hp.map Msg.timestamp).nodup_iff).mp hts
  have hlt : ∀ (l : List Msg), TsSorted l → (l.map Msg.timestamp).Nodup →
      l.Pairwise (fun a b => a.timestamp < b.timestamp) := by
    intro l hs hn
    have hne : l.Pairwise (fun a b => a.timestamp ≠ b.timestamp) :=
      List.pairwise_map.mp hn
    exact (hs.and hne).imp (fun h => Nat.lt_of_le_of_ne h.1 h.2)
  exact List.eq_of_perm_of_sorted hp (hlt A ha hts) (hlt B hb hBts)

theorem sortByTs_eq_of_perm (X Y : List Msg) (hp : List.Perm X Y)
    (hts : (X.map Msg.timestamp).Nodup) : sortByTs X = sortByTs Y := by
  refine tsSorted_eq_of_perm _ _ ?_ (sortByTs_sorted X) (sortByTs_sorted Y) ?_
  · exact (sortByTs_perm X).trans (hp.trans (sortByTs_perm Y).symm)
  · exact (((sortByTs_perm X).map Msg.timestamp).nodup_iff).mpr hts

/-- C10 counterexample: on a store holding ids "a" and "b" with equal
timestamps, re-adding id "a" via `addMessage` moves it behind the tied
entry, while `addBatch` keeps it at its original position — the two views
differ in order. -/

theorem addMessage_vs_addBatch_single_cex :
    addMessage ⟨"a", "user", "new", 0⟩ [⟨"a", "user", "old", 0⟩, ⟨"b", "user", "x", 0⟩] ≠
      addMessages [⟨"a", "user", "new", 0⟩]
        [⟨"a", "user", "old", 0⟩, ⟨"b", "user", "x", 0⟩] := by
  decide

/-- C10 (amended): on a store with pairwise-distinct ids, `add(m)` and
`addBatch([m])` produce identical views whenever `m`'s id is not already
present, and also whenever no timestamp tie is possible (the retained
entries' timestamps together with `m`'s are pairwise distinct); when `m`
replaces an entry that ties on timestamp with another entry the two
operations may order the tied group differently, as the counterexample
shows. -/

theorem addMessage_refines_addBatch_single :
    (∀ (s : List Msg) (m : Msg), (ids s).Nodup → m.id ∉ ids s →
      addMessage m s = addMessages [m] s) ∧
    (∀ (s : List Msg) (m : Msg), (ids s).Nodup →
      ((s.filter (fun x => ¬ x.id == m.id)).map Msg.timestamp ++ [m.timestamp]).Nodup →
      addMessage m s = addMessages [m] s) := by
  have key : ∀ (s : List Msg) (m : Msg), (ids s).Nodup →
      addMessages [m] s = sliceLast 100 (sortByTs (mapSet s m)) := by
    intro s m h
    unfold addMessages
    rw [dedupById_append_single, dedupById_eq_self s h]
  have fresh : ∀ (s : List Msg) (m : Msg), (ids s).Nodup → m.id ∉ ids s →
      addMessage m s = addMessages [m] s := by
    intro s m hnd hnm
    rw [key s m hnd, mapSet_append_of_not_mem s m hnm]
    unfold addMessage
    rw [filter_eq_self_of_not_mem_ids s m hnm]
  refine ⟨fresh, ?_⟩
  intro s m hnd hts
  by_cases hmem : m.id ∈ ids s
  · rw [key s m hnd]
    unfold addMessage
    have hany : (s.any fun x => x.id == m.id) = true := by
      rcases List.mem_map.mp hmem with ⟨x, hx, hxid⟩
      exact List.any_eq_true.mpr ⟨x, hx, beq_iff_eq.mpr hxid⟩
    have hmap : mapSet s m = s.map (fun x => if x.id == m.id then m else x) := by
      unfold mapSet
      rw [if_pos hany]
    rw [hmap]
    have hperm : List.Perm (s.filter (fun x => ¬ x.id == m.id) ++ [m])
        (s.map (fun x => if x.id == m.id then m else x)) :=
      (map_replace_perm s m hnd hmem).symm
    have hts' : ((s.filter (fun x => ¬ x.id == m.id) ++ [m]).map Msg.timestamp).Nodup := by
      simpa using hts
    rw [sortByTs_eq_of_perm _ _ hperm hts']
  · exact fresh s m hnd hmem

/-- Witness for the amended C10: a fresh id and a replacement with distinct
timestamps, each giving identical views for add and addBatch. -/

theorem addMessage_refines_addBatch_single_witness :
    (addMessage ⟨"a", "user", "t", 3⟩ [⟨"b", "user", "x", 5⟩] =
      addMessages [⟨"a", "user", "t", 3⟩] [⟨"b", "user", "x", 5⟩]) ∧
    (addMessage ⟨"a", "user", "new", 2⟩ [⟨"a", "user", "old", 1⟩] =
      addMessages [⟨"a", "user", "new", 2⟩] [⟨"a", "user", "old", 1⟩]) :=
  ⟨addMessage_refines_addBatch_single.1 [⟨"b", "user", "x", 5⟩] ⟨"a", "user", "t", 3⟩
      (by decide) (by decide),
   addMessage_refines_addBatch_single.2 [⟨"a", "user", "old", 1⟩] ⟨"a", "user", "new", 2⟩
      (by decide) (by decide)⟩

/-- C8: `colorFor` agrees with the spec's `abs(hash) mod 15` palette-index
formula, the tokenizer's mention-color function computes the same mapping,
and — being a pure function — `colorFor("alice")` is the same palette entry
(`"#FF0000"`) on every call. -/

theorem userColor_palette_hash_agreement :
    (∀ u : String,
      generateDefaultColor u = colorForSpec u ∧
      generateUserColor u = generateDefaultColor u) ∧
    generateDefaultColor "alice" = "#FF0000" :=
  ⟨fun _ => ⟨rfl, rfl⟩, by decide⟩

/-- C7 counterexample: on the spec's exact sample line the host part `x`
does not match `\w+\.tmi\.twitch\.tv`, so `parsePrivMsg` returns no message
at all instead of the claimed username "Bob" / color "#FF0000" / text "hi". -/

theorem parsePrivMsg_spec_line_none :
    parsePrivMsg "@color=#FF0000;display-name=Bob :bob!bob@x PRIVMSG #c :hi" = none := by
  decide

/-- C7 (amended): with a host of the form the parser's own pattern documents
(`bob.tmi.twitch.tv`), the tagged line yields username "Bob", color
"#FF0000" and message "hi". -/

theorem parsePrivMsg_tagged_line_fields :
    parsePrivMsg
        "@color=#FF0000;display-name=Bob :bob!bob@bob.tmi.twitch.tv PRIVMSG #c :hi" =
      some ⟨"Bob", "#FF0000", "hi"⟩ := by
  decide

theorem overlapsPair_eq_true_iff {s e es ee : Nat} :
    overlapsPair s e es ee = true ↔ (s ≤ ee ∧ es ≤ e) := by
  simp [overlapsPair]

theorem insortStart_perm (x : Range) (l : List Range) :
    List.Perm (insortStart x l) (x :: l) := by
  induction l with
  | nil => simp [insortStart]
  | cons y ys ih =>
    by_cases h : y.start ≤ x.start
    · simp only [insortStart, if_pos h]
      exact (ih.cons y).trans (List.Perm.swap x y ys)
    · simp [insortStart, if_neg h]

theorem resolvedRanges_perm (text : List Char) (emotes : List EmoteAnn) :
    List.Perm (resolvedRanges text emotes) (allRanges text emotes) := by
  suffices h : ∀ (l acc : List Range),
      List.Perm (l.foldl (fun acc x => insortStart x acc) acc) (acc ++ l) by
    simpa [resolvedRanges] using h (allRanges text emotes) []
  intro l
  induction l with
  | nil => intro acc; simp
  | cons m t ih =>
    intro acc
    have h1 := ih (insortStart m acc)
    have h2 : List.Perm (insortStart m acc ++ t) ((m :: acc) ++ t) :=
      (insortStart_perm m acc).append_right t
    have h3 : List.Perm ((m :: acc) ++ t) (acc ++ m :: t) := by
      simpa using (@List.perm_middle _ m acc t).symm
    exact (h1.trans h2).trans h3

theorem insortStart_sorted (x : Range) (l : List Range) (h : SortedByStart l) :
    SortedByStart (insortStart x l) := by
  induction l with
  | nil => simp [insortStart, SortedByStart]
  | cons y ys ih =>
    rcases h with _ | ⟨hy, hys⟩
    by_cases hle : y.start ≤ x.start
    · simp only [insortStart, if_pos hle]
      refine List.Pairwise.cons ?_ (ih hys)
      intro z hz
      have hz' := (insortStart_perm x ys).mem_iff.mp hz
      rcases List.mem_cons.mp hz' with rfl | hz''
      · exact hle
      · exact hy z hz''
    · simp only [insortStart, if_neg hle]
      have hxle : x.start ≤ y.start := Nat.le_of_not_le hle
      refine List.Pairwise.cons ?_ (List.Pairwise.cons hy hys)
      intro z hz
      rcases List.mem_cons.mp hz with rfl | hz'
      · exact hxle
      · exact Nat.le_trans hxle (hy z hz')

theorem scanAux_start_ge (f : List Char → Option (Nat × String))
    (hlen : ∀ cs n v, f cs = some (n, v) → 1 ≤ n) :
    ∀ (fuel : Nat) (cs : List Char) (i : Nat) (r : Nat × Nat × String),
      r ∈ scanAux f fuel cs i → i ≤ r.1 ∧ r.1 ≤ r.2.1 := by
  intro fuel
  induction fuel with
  | zero => intro cs i r hr; simp [scanAux] at hr
  | succ fuel ih =>
    intro cs i r hr
    match cs with
    | [] => simp [scanAux] at hr
    | c :: rest =>
      simp only [scanAux] at hr
      cases hm : f (c :: rest) with
      | some lv =>
        rw [hm] at hr
        simp only [] at hr
        have h1 : 1 ≤ lv.1 := hlen _ _ _ (by rw [hm])
        rcases List.mem_cons.mp hr with heq | hr'
        · subst heq
          constructor
          · exact Nat.le_refl i
          · show i ≤ i + lv.1 - 1
            omega
        · have := ih _ _ r hr'
          omega
      | none =>
        rw [hm] at hr
        simp only [] at hr
        have := ih rest (i + 1) r hr
        omega

theorem scanAux_chain (f : List Char → Option (Nat × String))
    (hlen : ∀ cs n v, f cs = some (n, v) → 1 ≤ n) :
    ∀ (fuel : Nat) (cs : List Char) (i : Nat),
      (scanAux f fuel cs i).Pairwise (fun p q => p.2.1 < q.1) := by
  intro fuel
  induction fuel with
  | zero => intro cs i; simp [scanAux]
  | succ fuel ih =>
    intro cs i
    match cs with
    | [] => simp [scanAux]
    | c :: rest =>
      simp only [scanAux]
      cases hm : f (c :: rest) with
      | some lv =>
        simp only []
        refine List.Pairwise.cons ?_ (ih _ _)
        intro q hq
        have hq1 := (scanAux_start_ge f hlen fuel _ _ q hq).1
        have h1 : 1 ≤ lv.1 := hlen _ _ _ (by rw [hm])
        show i + lv.1 - 1 < q.1
        omega
      | none =>
        simp only []
        exact ih rest (i + 1)

theorem matchLinkAt_len (cs : List Char) (n : Nat) (v : String)
    (h : matchLinkAt cs = some (n, v)) : 1 ≤ n := by
  unfold matchLinkAt at h
  by_cases h1 : ciMatchesLit "https://".data cs = true
  · rw [if_pos h1] at h
    by_cases h2 : ((cs.drop 8).takeWhile linkClassChar).isEmpty = true
    · rw [if_pos h2] at h
      exact Option.noConfusion h
    · rw [if_neg h2] at h
      have := Option.some.inj h
      have hn : n = 8 + ((cs.drop 8).takeWhile linkClassChar).length := by
        have := congrArg Prod.fst this
        simp at this
        omega
      omega
  · rw [if_neg h1] at h
    exact Option.noConfusion h

theorem matchMentionAt_len (cs : List Char) (n : Nat) (v : String)
    (h : matchMentionAt cs = some (n, v)) : 1 ≤ n := by
  match cs with
  | [] => exact Option.noConfusion h
  | c :: rest =>
    simp only [matchMentionAt] at h
    by_cases hc : c = '@'
    · rw [if_pos hc] at h
      by_cases h2 : (rest.takeWhile isWordChar).isEmpty = true
      · rw [if_pos h2] at h
        exact Option.noConfusion h
      · rw [if_neg h2] at h
        have := congrArg Prod.fst (Option.some.inj h)
        simp at this
        omega
    · rw [if_neg hc] at h
      exact Option.noConfusion h

theorem scanLinks_chain (text : List Char) :
    (scanLinks text).Pairwise (fun p q => p.2.1 < q.1) :=
  scanAux_chain matchLinkAt matchLinkAt_len _ _ _

theorem scanMentions_chain (text : List Char) :
    (scanMentions text).Pairwise (fun p q => p.2.1 < q.1) :=
  scanAux_chain matchMentionAt matchMentionAt_len _ _ _

theorem mem_keptLinks_iff {text : List Char} {emotes : List EmoteAnn}
    {lr : Nat × Nat × String} :
    lr ∈ keptLinks text emotes ↔
      lr ∈ scanLinks text ∧
        ∀ er ∈ emoteRanges emotes, ¬(lr.1 ≤ er.2.1 ∧ er.1 ≤ lr.2.1) := by
  unfold keptLinks
  rw [List.mem_filter]
  constructor
  · rintro ⟨h1, h2⟩
    refine ⟨h1, ?_⟩
    intro er her hov
    rw [Bool.not_eq_true'] at h2
    have : ((emoteRanges emotes).any fun er => overlapsPair lr.1 lr.2.1 er.1 er.2.1) = true :=
      List.any_eq_true.mpr ⟨er, her, overlapsPair_eq_true_iff.mpr hov⟩
    rw [h2] at this
    exact Bool.false_ne_true this
  · rintro ⟨h1, h2⟩
    refine ⟨h1, ?_⟩
    rw [Bool.not_eq_true']
    by_contra hne
    have hany : ((emoteRanges emotes).any fun er => overlapsPair lr.1 lr.2.1 er.1 er.2.1) = true := by
      cases hx : (emoteRanges emotes).any fun er => overlapsPair lr.1 lr.2.1 er.1 er.2.1
      · exact absurd hx hne
      · rfl
    rcases List.any_eq_true.mp hany with ⟨er, her, hov⟩
    exact h2 er her (overlapsPair_eq_true_iff.mp hov)

theorem mem_keptMentions_iff {text : List Char} {emotes : List EmoteAnn}
    {mr : Nat × Nat × String} :
    mr ∈ keptMentions text emotes ↔
      mr ∈ scanMentions text ∧
        (∀ er ∈ emoteRanges emotes, ¬(mr.1 ≤ er.2.1 ∧ er.1 ≤ mr.2.1)) ∧
        (∀ lr ∈ scanLinks text, ¬(mr.1 ≤ lr.2.1 ∧ lr.1 ≤ mr.2.1)) := by
  unfold keptMentions
  rw [List.mem_filter]
  constructor
  · rintro ⟨h1, h2⟩
    rw [Bool.and_eq_true] at h2
    rcases h2 with ⟨h2a, h2b⟩
    rw [Bool.not_eq_true'] at h2a h2b
    refine ⟨h1, ?_, ?_⟩
    · intro er her hov
      have : ((emoteRanges emotes).any fun er => overlapsPair mr.1 mr.2.1 er.1 er.2.1) = true :=
        List.any_eq_true.mpr ⟨er, her, overlapsPair_eq_true_iff.mpr hov⟩
      rw [h2a] at this
      exact Bool.false_ne_true this
    · intro lr hlr hov
      have : ((scanLinks text).any fun lr => overlapsPair mr.1 mr.2.1 lr.1 lr.2.1) = true :=
        List.any_eq_true.mpr ⟨lr, hlr, overlapsPair_eq_true_iff.mpr hov⟩
      rw [h2b] at this
      exact Bool.false_ne_true this
  · rintro ⟨h1, h2, h3⟩
    refine ⟨h1, ?_⟩
    rw [Bool.and_eq_true, Bool.not_eq_true', Bool.not_eq_true']
    constructor
    · by_contra hne
      have hany : ((emoteRanges emotes).any fun er => overlapsPair mr.1 mr.2.1 er.1 er.2.1) = true := by
        cases hx : (emoteRanges emotes).any fun er => overlapsPair mr.1 mr.2.1 er.1 er.2.1
        · exact absurd hx hne
        · rfl
      rcases List.any_eq_true.mp hany with ⟨er, her, hov⟩
      exact h2 er her (overlapsPair_eq_true_iff.mp hov)
    · by_contra hne
      have hany : ((scanLinks text).any fun lr => overlapsPair mr.1 mr.2.1 lr.1 lr.2.1) = true := by
        cases hx : (scanLinks text).any fun lr => overlapsPair mr.1 mr.2.1 lr.1 lr.2.1
        · exact absurd hx hne
        · rfl
      rcases List.any_eq_true.mp hany with ⟨lr, hlr, hov⟩
      exact h3 lr hlr (overlapsPair_eq_true_iff.mp hov)

theorem allRanges_pairwise_disjoint (text : List Char) (emotes : List EmoteAnn)
    (hwf : EmoteAnnsWellFormed emotes) :
    (allRanges text emotes).Pairwise
      (fun a b => ¬(a.start ≤ b.stop ∧ b.start ≤ a.stop)) := by
  unfold allRanges
  rw [List.pairwise_append, List.pairwise_append]
  refine ⟨⟨?_, ?_, ?_⟩, ?_, ?_⟩
  · unfold emotePart
    rw [List.pairwise_map]
    simpa using hwf.2
  · unfold linkPart
    rw [List.pairwise_map]
    have hchain : (keptLinks text emotes).Pairwise (fun p q => p.2.1 < q.1) :=
      (scanLinks_chain text).sublist (List.filter_sublist _)
    exact hchain.imp (fun h => by simp only []; omega)
  · intro a ha b hb
    unfold emotePart at ha
    unfold linkPart at hb
    rcases List.mem_map.mp ha with ⟨er, her, rfl⟩
    rcases List.mem_map.mp hb with ⟨lr, hlr, rfl⟩
    have hno := (mem_keptLinks_iff.mp hlr).2 er her
    rintro ⟨h1, h2⟩
    exact hno ⟨h2, h1⟩
  · unfold mentionPart
    rw [List.pairwise_map]
    have hchain : (keptMentions text emotes).Pairwise (fun p q => p.2.1 < q.1) :=
      (scanMentions_chain text).sublist (List.filter_sublist _)
    exact hchain.imp (fun h => by simp only []; omega)
  · intro a ha c hc
    unfold mentionPart at hc
    rcases List.mem_map.mp hc with ⟨mr, hmr, rfl⟩
    rcases List.mem_append.mp ha with hae | hal
    · unfold emotePart at hae
      rcases List.mem_map.mp hae with ⟨er, her, rfl⟩
      have hno := (mem_keptMentions_iff.mp hmr).2.1 er her
      rintro ⟨h1, h2⟩
      exact hno ⟨h2, h1⟩
    · unfold linkPart at hal
      rcases List.mem_map.mp hal with ⟨lr, hlr, rfl⟩
      have hlr' : lr ∈ scanLinks text := (mem_keptLinks_iff.mp hlr).1
      have hno := (mem_keptMentions_iff.mp hmr).2.2 lr hlr'
      rintro ⟨h1, h2⟩
      exact hno ⟨h2, h1⟩

/-! ### Tokenizer claim theorems (C4, C5) -/

/-- C4 counterexample: the link regex only matches `https://` URLs, so
tokenizing "hello @bob http://x" yields zero link tokens — not the one link
token the claim asserts. -/

theorem tokenize_http_no_link_token :
    (messageTokens "hello @bob http://x".data []).countP
      (fun t => match t with | Tok.link _ => true | _ => false) = 0 := by
  decide

/-- C4 (amended): tokenizing "hello @bob http://x" with no emote annotations
yields exactly one mention token for "bob"; since link detection matches
only `https://` URLs, no link token is produced and "http://x" stays inside
the trailing plain-text token, with "hello " emitted as plain text. -/

theorem tokenize_hello_bob_http_tokens :
    messageTokens "hello @bob http://x".data [] =
      [Tok.text "hello ", Tok.mention "bob", Tok.text " http://x"] := by
  decide

/-- C5 counterexample: two overlapping emote annotations are never resolved
against each other, so the surviving range list is not pairwise disjoint. -/

theorem resolved_ranges_not_disjoint_cex :
    ¬ RangesDisjoint (resolvedRanges "abc".data
      [⟨"e1", "u1", [(0, 1)]⟩, ⟨"e2", "u2", [(1, 2)]⟩]) := by
  decide

/-- C5 (amended): provided the emote annotations are well-formed and
pairwise disjoint (the spec makes adapters responsible for this), overlap
resolution follows the priority emote > link > mention: every emote range
survives; a detected link survives iff it intersects no emote range; a
detected mention survives iff it intersects no emote range and no detected
link range (dropped entirely, never clipped); and the resolved ranges are
ordered by start offset ascending and pairwise disjoint. -/

theorem tokenizer_overlap_priority_resolution (text : List Char) (emotes : List EmoteAnn)
    (hwf : EmoteAnnsWellFormed emotes) :
    SortedByStart (resolvedRanges text emotes) ∧
    RangesDisjoint (resolvedRanges text emotes) ∧
    (∀ er ∈ emoteRanges emotes, ∃ r ∈ resolvedRanges text emotes,
        r.kind = RKind.emote ∧ r.start = er.1 ∧ r.stop = er.2.1) ∧
    (∀ lr ∈ scanLinks text,
      ((∃ r ∈ resolvedRanges text emotes,
          r.kind = RKind.link ∧ r.start = lr.1 ∧ r.stop = lr.2.1) ↔
        (∀ er ∈ emoteRanges emotes, ¬(lr.1 ≤ er.2.1 ∧ er.1 ≤ lr.2.1)))) ∧
    (∀ mr ∈ scanMentions text,
      ((∃ r ∈ resolvedRanges text emotes,
          r.kind = RKind.mention ∧ r.start = mr.1 ∧ r.stop = mr.2.1) ↔
        ((∀ er ∈ emoteRanges emotes, ¬(mr.1 ≤ er.2.1 ∧ er.1 ≤ mr.2.1)) ∧
         (∀ lr ∈ scanLinks text, ¬(mr.1 ≤ lr.2.1 ∧ lr.1 ≤ mr.2.1))))) := by
  have hperm := resolvedRanges_perm text emotes
  refine ⟨?_, ?_, ?_, ?_, ?_⟩
  · suffices h : ∀ (l acc : List Range), SortedByStart acc →
        SortedByStart (l.foldl (fun acc x => insortStart x acc) acc) by
      exact h (allRanges text emotes) [] (by simp [SortedByStart])
    intro l
    induction l with
    | nil => intro acc hacc; simpa using hacc
    | cons m t ih => intro acc hacc; exact ih (insortStart m acc) (insortStart_sorted m acc hacc)
  · exact (List.Perm.pairwise_iff (fun h hc => h ⟨hc.2, hc.1⟩) hperm).mpr
      (allRanges_pairwise_disjoint text emotes hwf)
  · intro er her
    refine ⟨⟨.emote, er.1, er.2.1,
        String.mk ((text.drop er.1).take (er.2.1 + 1 - er.1)), some er.2.2⟩, ?_, rfl, rfl, rfl⟩
    refine hperm.mem_iff.mpr ?_
    unfold allRanges
    refine List.mem_append_left _ (List.mem_append_left _ ?_)
    unfold emotePart
    exact List.mem_map_of_mem _ her
  · intro lr hlr
    constructor
    · rintro ⟨r, hr, hk, hs, he⟩
      have hr' := hperm.mem_iff.mp hr
      unfold allRanges at hr'
      rcases List.mem_append.mp hr' with hab | hm
      · rcases List.mem_append.mp hab with ha | hb
        · unfold emotePart at ha
          rcases List.mem_map.mp ha with ⟨er, _, rfl⟩
          simp at hk
        · unfold linkPart at hb
          rcases List.mem_map.mp hb with ⟨lr', hlr', rfl⟩
          replace hs : lr'.1 = lr.1 := hs
          replace he : lr'.2.1 = lr.2.1 := he
          intro er her
          rw [← hs, ← he]
          exact (mem_keptLinks_iff.mp hlr').2 er her
      · unfold mentionPart at hm
        rcases List.mem_map.mp hm with ⟨mr, _, rfl⟩
        simp at hk
    · intro hno
      refine ⟨⟨.link, lr.1, lr.2.1, lr.2.2, none⟩, ?_, rfl, rfl, rfl⟩
      refine hperm.mem_iff.mpr ?_
      unfold allRanges
      refine List.mem_append_left _ (List.mem_append_right _ ?_)
      unfold linkPart
      exact List.mem_map_of_mem _ (mem_keptLinks_iff.mpr ⟨hlr, hno⟩)
  · intro mr hmr
    constructor
    · rintro ⟨r, hr, hk, hs, he⟩
      have hr' := hperm.mem_iff.mp hr
      unfold allRanges at hr'
      rcases List.mem_append.mp hr' with hab | hm
      · rcases List.mem_append.mp hab with ha | hb
        · unfold emotePart at ha
          rcases List.mem_map.mp ha with ⟨er, _, rfl⟩
          simp at hk
        · unfold linkPart at hb
          rcases List.mem_map.mp hb with ⟨lr', _, rfl⟩
          simp at hk
      · unfold mentionPart at hm
        rcases List.mem_map.mp hm with ⟨mr', hmr', rfl⟩
        replace hs : mr'.1 = mr.1 := hs
        replace he : mr'.2.1 = mr.2.1 := he
        have hkm := mem_keptMentions_iff.mp hmr'
        constructor
        · intro er her
          rw [← hs, ← he]
          exact hkm.2.1 er her
        · intro lr hlr
          rw [← hs, ← he]
          exact hkm.2.2 lr hlr
    · rintro ⟨hnoe, hnol⟩
      refine ⟨⟨.mention, mr.1, mr.2.1, mr.2.2, none⟩, ?_, rfl, rfl, rfl⟩
      refine hperm.mem_iff.mpr ?_
      unfold allRanges
      refine List.mem_append_right _ ?_
      unfold mentionPart
      exact List.mem_map_of_mem _ (mem_keptMentions_iff.mpr ⟨hmr, hnoe, hnol⟩)

/-- Witness for the amended C5 at a concrete text with one well-formed
emote annotation. -/

theorem tokenizer_overlap_priority_resolution_witness :
    SortedByStart (resolvedRanges "hi @bob e".data [⟨"e", "u", [(8, 8)]⟩]) ∧
    RangesDisjoint (resolvedRanges "hi @bob e".data [⟨"e", "u", [(8, 8)]⟩]) :=
  ⟨(tokenizer_overlap_priority_resolution "hi @bob e".data [⟨"e", "u", [(8, 8)]⟩]
      (by decide)).1,
   (tokenizer_overlap_priority_resolution "hi @bob e".data [⟨"e", "u", [(8, 8)]⟩]
      (by decide)).2.1⟩

set_option maxRecDepth 10000 in

/-- C6: the code computes emote positions during run assembly and truncates
only afterwards, so although the message is indeed cut to exactly 300
characters plus one ellipsis, the emote token's position `[350, 351]`
exceeds the truncated length 301 — truncation does not happen before token
positions are computed, contradicting the spec's invariant. -/

theorem extractTextMessage_position_exceeds_truncated_length :
    (extractTextMessage longRuns [] none none).1 =
        String.mk (List.replicate 300 'a') ++ "…" ∧
    (extractTextMessage longRuns [] none none).2 = [⟨"w", "u", [(350, 351)]⟩] ∧
    ((extractTextMessage longRuns [] none none).2.any (fun em =>
      em.positions.any (fun p =>
        decide (p.2 > (extractTextMessage longRuns [] none none).1.length)))) = true := by
  refine ⟨?_, ?_, ?_⟩ <;> decide

end CombinedChatOverlay
